import Mathlib

/-!
# rcd: the AVL address set (`src/avl.h`) and the allocation registry (`src/lib.h`)

Shallow embedding.

* A pointer `AvlNode*` is a value of the inductive type `AvlNode`: `nil` is `NULL`, and
  `node key left right height` is a pointer to a live struct with these four fields.
  Nodes are exclusively owned by their parent, so a finite tree value determines the
  reachable heap; node addresses themselves are not represented.
* `void*` keys are natural numbers (the address value, `NULL` is `0`); the tree only compares
  them with `<` and `>`.
* `int` heights are integers. A correct stored height is at most the number of nodes of the
  subtree, and at most 92 in a balanced tree of up to `2 ^ 64` keys, so the 32-bit wrap-around
  of `1 + max(...)` is out of reach and is not modelled.
* Dereferencing `NULL` (`node->left` for `node == NULL`) is undefined behaviour in C; the
  embedding returns `none` there, so `some` results certify that no such read happened.
* `malloc` for tree nodes is taken to succeed (the source does not test its result either).
* A visitor `void (*func)(void*)` acts on an explicit state `σ`.
* `free(node)` on tree nodes leaves no trace in the model; `free(ptr)` on keys is logged in
  the registry state.
* Memory is a map from addresses to bytes together with the list of live blocks, each with
  its address and size: a successful `malloc(size)` adds a block, `free` takes it away.
  The library call `memcpy(dst, src, n)` with `n > 0` has a result only when the `n` bytes
  at `src` and the `n` bytes at `dst` lie inside live blocks; through `NULL` or beyond a
  block the behaviour is undefined in C and the embedding returns `none` (`copy` and `resize`
  are marked "Produce invalid reads" in `lib.h`).
-/

namespace Rcd

/-! ## `src/avl.h` -/

/-- A value of type `AvlNode*`. -/
inductive AvlNode where
  | nil : AvlNode
  | node (key : Nat) (left : AvlNode) (right : AvlNode) (height : Int) : AvlNode
  deriving DecidableEq

/-- The struct `AvlTree`: a single root pointer. -/
structure AvlTree where
  root : AvlNode
  deriving DecidableEq

/-- Source `avl_new`: a tree whose root is `NULL`. -/
def avl_new : AvlTree := ⟨AvlNode.nil⟩

/-- Source `avlnode_get_height`: `node ? node->height : 0`. -/
def avlnode_get_height : AvlNode → Int
  | .nil => 0
  | .node _ _ _ h => h

/-- Source `avlnode_get_balance`:
`node ? get_height(node->left) - get_height(node->right) : 0`. -/
def avlnode_get_balance : AvlNode → Int
  | .nil => 0
  | .node _ l r _ => avlnode_get_height l - avlnode_get_height r

/-- Source `avlnode_update_height`: writes `node->height`; reads through `node`, so `NULL` is an
invalid read. -/
def avlnode_update_height : AvlNode → Option AvlNode
  | .nil => none
  | .node k l r _ =>
    some (.node k l r
      (1 + (if avlnode_get_height l > avlnode_get_height r
            then avlnode_get_height l else avlnode_get_height r)))

/-- Source `avlnode_rotate_left`: `temp = node->right; node->right = temp->left; temp->left = node`,
then the heights of `node` and of `temp` are recomputed, in this order. -/
def avlnode_rotate_left : AvlNode → Option AvlNode
  | .node k l (.node tk tl tr th) h => do
    let node ← avlnode_update_height (.node k l tl h)
    avlnode_update_height (.node tk node tr th)
  | _ => none

/-- Source `avlnode_rotate_right`: `temp = node->left; node->left = temp->right; temp->right = node`,
then the heights of `node` and of `temp` are recomputed, in this order. -/
def avlnode_rotate_right : AvlNode → Option AvlNode
  | .node k (.node tk tl tr th) r h => do
    let node ← avlnode_update_height (.node k tr r h)
    avlnode_update_height (.node tk tl node th)
  | _ => none

/-- Source `avlnode_rebalance`. The reads `node->left->left`, `node->left->right` (and the mirror
images) need `node->left` (`node->right`) to be non-null. -/
def avlnode_rebalance (node : AvlNode) : Option AvlNode := do
  let node ← avlnode_update_height node
  let balance := avlnode_get_balance node
  if balance > 1 then
    match node with
    | .node k (.node lk ll lr lh) r h =>
      if avlnode_get_height ll ≥ avlnode_get_height lr then
        avlnode_rotate_right (.node k (.node lk ll lr lh) r h)
      else do
        let l ← avlnode_rotate_left (.node lk ll lr lh)
        avlnode_rotate_right (.node k l r h)
    | _ => none
  else if balance < -1 then
    match node with
    | .node k l (.node rk rl rr rh) h =>
      if avlnode_get_height rr ≥ avlnode_get_height rl then
        avlnode_rotate_left (.node k l (.node rk rl rr rh) h)
      else do
        let r ← avlnode_rotate_right (.node rk rl rr rh)
        avlnode_rotate_left (.node k l r h)
    | _ => none
  else
    some node

/-- Source `avlnode_insert`: the new value of `*node`. When `key` equals the key of the node neither
branch is taken; the rebalance at the end of the function runs in every case. -/
def avlnode_insert : AvlNode → Nat → Option AvlNode
  | .nil, key => avlnode_rebalance (.node key .nil .nil 1)
  | .node k l r h, key =>
    if key < k then do
      let l ← avlnode_insert l key
      avlnode_rebalance (.node k l r h)
    else if key > k then do
      let r ← avlnode_insert r key
      avlnode_rebalance (.node k l r h)
    else
      avlnode_rebalance (.node k l r h)

/-- The number of calls of `malloc` made by `avlnode_insert` (one in the `*node == NULL`
branch, none elsewhere), following the same path as `avlnode_insert`. -/
def avlnode_insert_mallocs : AvlNode → Nat → Nat
  | .nil, _ => 1
  | .node k l r _, key =>
    if key < k then avlnode_insert_mallocs l key
    else if key > k then avlnode_insert_mallocs r key
    else 0

/-- The number of calls of `avlnode_rotate_left` / `avlnode_rotate_right` made by
`avlnode_rebalance(node)`: one or two in the branches `balance > 1` and `balance < -1`, none
when it reaches `return node`. -/
def avlnode_rebalance_rotations (node : AvlNode) : Nat :=
  match avlnode_update_height node with
  | none => 0
  | some node =>
    let balance := avlnode_get_balance node
    if balance > 1 then
      match node with
      | .node _ (.node _ ll lr _) _ _ =>
        if avlnode_get_height ll ≥ avlnode_get_height lr then 1 else 2
      | _ => 0
    else if balance < -1 then
      match node with
      | .node _ _ (.node _ rl rr _) _ =>
        if avlnode_get_height rr ≥ avlnode_get_height rl then 1 else 2
      | _ => 0
    else 0

/-- The number of rotations made during `avlnode_insert`, over all the calls of
`avlnode_rebalance` on the way back up. -/
def avlnode_insert_rotations : AvlNode → Nat → Nat
  | .nil, key => avlnode_rebalance_rotations (.node key .nil .nil 1)
  | .node k l r h, key =>
    if key < k then
      avlnode_insert_rotations l key +
        match avlnode_insert l key with
        | none => 0
        | some l => avlnode_rebalance_rotations (.node k l r h)
    else if key > k then
      avlnode_insert_rotations r key +
        match avlnode_insert r key with
        | none => 0
        | some r => avlnode_rebalance_rotations (.node k l r h)
    else
      avlnode_rebalance_rotations (.node k l r h)

/-- Source `avl_insert`. -/
def avl_insert (tree : AvlTree) (key : Nat) : Option AvlTree :=
  (avlnode_insert tree.root key).map AvlTree.mk

/-- The loop `while (temp->left != NULL) temp = temp->left;` of `avlnode_remove`, started at
`temp`; the result is the final value of `temp`. Reading `temp->left` needs `temp != NULL`. -/
def avlnode_remove_loop : AvlNode → Option AvlNode
  | .nil => none
  | .node k .nil r h => some (.node k .nil r h)
  | .node _ (.node lk ll lr lh) _ _ => avlnode_remove_loop (.node lk ll lr lh)

/-- The tail of `avlnode_remove`: `if (*node != NULL) *node = avlnode_rebalance(*node);`. -/
def avlnode_remove_finish : AvlNode → Option AvlNode
  | .nil => some .nil
  | .node k l r h => avlnode_rebalance (.node k l r h)

/-- Source `avlnode_remove`: the new value of `*node`. -/
def avlnode_remove : AvlNode → Nat → Option AvlNode
  | .nil, _ => some .nil
  | .node k l r h, key =>
    if key < k then do
      let l ← avlnode_remove l key
      avlnode_remove_finish (.node k l r h)
    else if key > k then do
      let r ← avlnode_remove r key
      avlnode_remove_finish (.node k l r h)
    else if l = .nil then
      avlnode_remove_finish r
    else if r = .nil then
      avlnode_remove_finish l
    else do
      let temp ← avlnode_remove_loop r
      match temp with
      | .nil => none
      | .node tkey _ _ _ =>
        let r ← avlnode_remove r tkey
        avlnode_remove_finish (.node tkey l r h)

/-- Source `avl_remove`. -/
def avl_remove (tree : AvlTree) (key : Nat) : Option AvlTree :=
  (avlnode_remove tree.root key).map AvlTree.mk

/-- The arguments of the calls of `avlnode_rebalance` made during `avlnode_insert`, the
deepest call first: every level of the recursion ends with one call, on the node as the
recursive call has left it. -/
def avlnode_insert_rebalances : AvlNode → Nat → List AvlNode
  | .nil, key => [.node key .nil .nil 1]
  | .node k l r h, key =>
    if key < k then
      avlnode_insert_rebalances l key ++
        match avlnode_insert l key with
        | none => []
        | some l => [.node k l r h]
    else if key > k then
      avlnode_insert_rebalances r key ++
        match avlnode_insert r key with
        | none => []
        | some r => [.node k l r h]
    else
      [.node k l r h]

/-- The argument of the call of `avlnode_rebalance` made by the tail of `avlnode_remove`,
`if (*node != NULL) *node = avlnode_rebalance(*node);`, if there is one. -/
def avlnode_remove_finish_rebalances : AvlNode → List AvlNode
  | .nil => []
  | .node k l r h => [.node k l r h]

/-- The arguments of the calls of `avlnode_rebalance` made during `avlnode_remove`, the
deepest call first. -/
def avlnode_remove_rebalances : AvlNode → Nat → List AvlNode
  | .nil, _ => []
  | .node k l r h, key =>
    if key < k then
      avlnode_remove_rebalances l key ++
        match avlnode_remove l key with
        | none => []
        | some l => avlnode_remove_finish_rebalances (.node k l r h)
    else if key > k then
      avlnode_remove_rebalances r key ++
        match avlnode_remove r key with
        | none => []
        | some r => avlnode_remove_finish_rebalances (.node k l r h)
    else if l = .nil then
      avlnode_remove_finish_rebalances r
    else if r = .nil then
      avlnode_remove_finish_rebalances l
    else
      match avlnode_remove_loop r with
      | some (.node tkey _ _ _) =>
        avlnode_remove_rebalances r tkey ++
          match avlnode_remove r tkey with
          | none => []
          | some r => avlnode_remove_finish_rebalances (.node tkey l r h)
      | _ => []

/-- Source `avlnode_iter`: left subtree, `func(node->key)`, right subtree. -/
def avlnode_iter {σ : Type} : AvlNode → (Nat → σ → σ) → σ → σ
  | .nil, _, s => s
  | .node k l r _, func, s => avlnode_iter r func (func k (avlnode_iter l func s))

/-- Source `avlnode_iter_destroy`: left subtree, right subtree, `func(node->key)`, then the node is
freed. -/
def avlnode_iter_destroy {σ : Type} : AvlNode → (Nat → σ → σ) → σ → σ
  | .nil, _, s => s
  | .node k l r _, func, s =>
    func k (avlnode_iter_destroy r func (avlnode_iter_destroy l func s))

/-- Source `avl_iter`. -/
def avl_iter {σ : Type} (tree : AvlTree) (func : Nat → σ → σ) (s : σ) : σ :=
  avlnode_iter tree.root func s

/-- Source `avl_iter_destroy`: the tree handle is freed afterwards, so only the visitor state
remains. -/
def avl_iter_destroy {σ : Type} (tree : AvlTree) (func : Nat → σ → σ) (s : σ) : σ :=
  avlnode_iter_destroy tree.root func s

/-! ### Sequences of operations on a tree -/

/-- One call on the set: `avl_insert(tree, key)` or `avl_remove(tree, key)`. -/
inductive AvlOp where
  | insert (key : Nat) : AvlOp
  | remove (key : Nat) : AvlOp
  deriving DecidableEq

/-- The key an operation is called with. -/
def AvlOp.key : AvlOp → Nat
  | .insert k => k
  | .remove k => k

/-- Performs one call. -/
def avl_apply (tree : AvlTree) : AvlOp → Option AvlTree
  | .insert k => avl_insert tree k
  | .remove k => avl_remove tree k

/-- Performs the calls of `ops` from left to right, starting from `tree`. -/
def avl_run : List AvlOp → AvlTree → Option AvlTree
  | [], tree => some tree
  | op :: ops, tree => (avl_apply tree op).bind (avl_run ops)

/-- A tree obtained from `avl_new()` by finitely many `avl_insert` / `avl_remove` calls. -/
def Reachable (tree : AvlTree) : Prop :=
  ∃ ops : List AvlOp, avl_run ops avl_new = some tree

/-! ### Observations on a tree -/

/-- The keys of the nodes, left subtree first, then the node, then the right subtree. -/
def inorder : AvlNode → List Nat
  | .nil => []
  | .node k l r _ => inorder l ++ k :: inorder r

/-- The keys of the nodes, left subtree first, then the right subtree, then the node. -/
def postorder : AvlNode → List Nat
  | .nil => []
  | .node k l r _ => postorder l ++ (postorder r ++ [k])

/-- The number of nodes. -/
def size : AvlNode → Nat
  | .nil => 0
  | .node _ l r _ => size l + size r + 1

/-- The nodes of a tree, each given as the subtree it is the root of: the node itself, then
the nodes of its left subtree, then those of its right subtree. -/
def subtrees : AvlNode → List AvlNode
  | .nil => []
  | .node k l r h => .node k l r h :: (subtrees l ++ subtrees r)

/-- The visitor that appends the key it is called with to a list of visited keys. -/
def record (key : Nat) (visited : List Nat) : List Nat := visited ++ [key]

/-- Every node's stored height is `1 + max(height(left), height(right))`, an empty subtree
counting `0`. -/
def HeightsOk : AvlNode → Prop
  | .nil => True
  | .node _ l r h =>
    HeightsOk l ∧ HeightsOk r ∧
      h = 1 + max (avlnode_get_height l) (avlnode_get_height r)

/-- Every node's balance factor `height(left) - height(right)` lies in `[-1, 1]`. -/
def BalanceOk : AvlNode → Prop
  | .nil => True
  | .node _ l r _ =>
    BalanceOk l ∧ BalanceOk r ∧
      -1 ≤ avlnode_get_height l - avlnode_get_height r ∧
      avlnode_get_height l - avlnode_get_height r ≤ 1

/-- Decides `HeightsOk`. -/
instance HeightsOk.decide : (t : AvlNode) → Decidable (HeightsOk t)
  | .nil => isTrue trivial
  | .node _ l r h =>
    have := HeightsOk.decide l
    have := HeightsOk.decide r
    decidable_of_iff
      (HeightsOk l ∧ HeightsOk r ∧ h = 1 + max (avlnode_get_height l) (avlnode_get_height r))
      (by simp [HeightsOk])

/-- Decides `BalanceOk`. -/
instance BalanceOk.decide : (t : AvlNode) → Decidable (BalanceOk t)
  | .nil => isTrue trivial
  | .node _ l r _ =>
    have := BalanceOk.decide l
    have := BalanceOk.decide r
    decidable_of_iff
      (BalanceOk l ∧ BalanceOk r ∧
        -1 ≤ avlnode_get_height l - avlnode_get_height r ∧
        avlnode_get_height l - avlnode_get_height r ≤ 1)
      (by simp [BalanceOk])

/-- The invariant of the data model: correct stored heights and balance factors in
`[-1, 1]` at every node. -/
def AvlInv (t : AvlNode) : Prop := HeightsOk t ∧ BalanceOk t

/-- Decides `AvlInv`. -/
instance AvlInv.decide (t : AvlNode) : Decidable (AvlInv t) :=
  inferInstanceAs (Decidable (HeightsOk t ∧ BalanceOk t))

/-- The in-order key sequence is strictly increasing. -/
def Ordered (t : AvlNode) : Prop := (inorder t).Pairwise (· < ·)

/-- Decides `Ordered`. -/
instance Ordered.decide (t : AvlNode) : Decidable (Ordered t) :=
  inferInstanceAs (Decidable ((inorder t).Pairwise (· < ·)))

/-- The set of keys after a sequence of calls, as the contract describes it: `insert` adds
the key, `remove` takes it away. -/
def keysAfter : List AvlOp → Finset Nat → Finset Nat
  | [], s => s
  | .insert k :: ops, s => keysAfter ops (insert k s)
  | .remove k :: ops, s => keysAfter ops (s.erase k)

/-! ## `src/lib.h` -/

/-- The process state the functions of `lib.h` act on. `gc` is the global `static AvlTree* gc`
(`none` while it does not point to a live tree: before `startup` and after `quit`), `mem` the
byte stored at each address, `allocated` the values `malloc` has returned for blocks and
`freed` the arguments of the calls `free(ptr)` made on keys, both oldest first, and `blocks`
the live blocks of the heap, each as the pair of its address and its size in bytes. -/
structure Registry where
  gc : Option AvlTree
  mem : Nat → Nat
  allocated : List Nat
  freed : List Nat
  blocks : List (Nat × Nat)

/-- The state before `startup` has run. -/
def boot : Registry := ⟨none, fun _ => 0, [], [], []⟩

/-- Source `startup`: `gc = avl_new()` (the signal handlers it installs are not part of the state). -/
def startup (w : Registry) : Registry := { w with gc := some avl_new }

/-- The call `free(ptr)` on a key: the call is logged and the block at `ptr` is no longer
live. -/
def free (ptr : Nat) (w : Registry) : Registry :=
  { w with freed := w.freed ++ [ptr], blocks := w.blocks.filter fun b => decide (b.1 ≠ ptr) }

/-- The `n` bytes at `addr`, `addr + 1`, … lie inside a live block. No block lives at `NULL`,
so no byte at `NULL` does. -/
def inBlock (w : Registry) (addr n : Nat) : Bool :=
  w.blocks.any fun b => decide (b.1 ≠ 0 ∧ b.1 ≤ addr ∧ addr + n ≤ b.1 + b.2)

/-- The library call `memcpy(dst, src, n)`. For `n > 0` it reads `n` bytes at `src` and writes
them at `dst`; when either range is not inside a live block (in particular when `src` or
`dst` is `NULL`, or when the range runs beyond the end of its block) the behaviour is
undefined and there is no result. For `n = 0` no byte is accessed. -/
def memcpy (dst src n : Nat) (w : Registry) : Option Registry :=
  if n = 0 ∨ (inBlock w dst n = true ∧ inBlock w src n = true) then
    some { w with mem := fun a =>
      if dst ≤ a ∧ a < dst + n then w.mem (src + (a - dst)) else w.mem a }
  else
    none

/-- Source `quit`: `avl_iter_destroy(gc, free)`. -/
def quit (w : Registry) : Option Registry :=
  match w.gc with
  | none => none
  | some tree => some { avl_iter_destroy tree free w with gc := none }

/-- The effect of the library call `malloc(size)` that returned `ptr`: the value is logged
and, unless the call failed (`ptr` is `NULL`), a block of `size` bytes is live at `ptr`. -/
def malloc_effect (ptr size : Nat) (w : Registry) : Registry :=
  { w with allocated := w.allocated ++ [ptr],
           blocks := if ptr = 0 then w.blocks else w.blocks ++ [(ptr, size)] }

/-- Source `alloc`: `ptr = malloc(size); avl_insert(gc, ptr); return ptr;`. The library function
`malloc` is a parameter: `malloc w size` is the address it returns in state `w` (`0` when it
fails). -/
def alloc (malloc : Registry → Nat → Nat) (w : Registry) (size : Nat) :
    Option (Registry × Nat) :=
  let ptr := malloc w size
  match w.gc with
  | none => none
  | some tree =>
    (avl_insert tree ptr).map fun tree =>
      ({ malloc_effect ptr size w with gc := some tree }, ptr)

/-- Source `drop`: `avl_remove(gc, ptr); free(ptr);`. -/
def drop (w : Registry) (ptr : Nat) : Option Registry :=
  match w.gc with
  | none => none
  | some tree => (avl_remove tree ptr).map fun tree => free ptr { w with gc := some tree }

/-- Source `copy`: `if (ptr == NULL) alloc(size);` then
`new_ptr = alloc(size); memcpy(new_ptr, ptr, size); return new_ptr;`. -/
def copy (malloc : Registry → Nat → Nat) (w : Registry) (ptr size : Nat) :
    Option (Registry × Nat) := do
  let w ← if ptr = 0 then (alloc malloc w size).map Prod.fst else some w
  let (w, new_ptr) ← alloc malloc w size
  let w ← memcpy new_ptr ptr size w
  some (w, new_ptr)

/-- The addresses currently held in the registry's tree, in increasing order of visit. -/
def tracked (w : Registry) : List Nat :=
  match w.gc with
  | none => []
  | some tree => inorder tree.root

/-- One call of the program on the registry: `alloc(size)` or `drop(ptr)`. -/
inductive RegOp where
  | alloc (size : Nat) : RegOp
  | drop (ptr : Nat) : RegOp

/-- Performs one call. -/
def reg_apply (malloc : Registry → Nat → Nat) (w : Registry) : RegOp → Option Registry
  | .alloc size => (alloc malloc w size).map Prod.fst
  | .drop ptr => drop w ptr

/-- Performs the calls of `ops` from left to right, starting from `w`. -/
def reg_run (malloc : Registry → Nat → Nat) : List RegOp → Registry → Option Registry
  | [], w => some w
  | op :: ops, w => (reg_apply malloc w op).bind (reg_run malloc ops)

/-- Every `drop` of `ops` is called on an address that is tracked at the time of the call. -/
def dropsTracked (malloc : Registry → Nat → Nat) : List RegOp → Registry → Bool
  | [], _ => true
  | .alloc size :: ops, w =>
    match reg_apply malloc w (.alloc size) with
    | none => true
    | some w => dropsTracked malloc ops w
  | .drop ptr :: ops, w =>
    decide (ptr ∈ tracked w) &&
      match reg_apply malloc w (.drop ptr) with
      | none => true
      | some w => dropsTracked malloc ops w

/-- An allocator that returns an address above every address it has returned so far. -/
def bumpAlloc (w : Registry) (_size : Nat) : Nat := w.allocated.foldr max 0 + 1

/-- The addresses the `drop` calls of `ops` are called with, in order. -/
def droppedBy : List RegOp → List Nat
  | [] => []
  | .alloc _ :: ops => droppedBy ops
  | .drop ptr :: ops => ptr :: droppedBy ops

/-- The number of `alloc` calls in `ops`. -/
def allocCalls : List RegOp → Nat
  | [] => 0
  | .alloc _ :: ops => allocCalls ops + 1
  | .drop _ :: ops => allocCalls ops

/-! ### Memory accesses of the programs under `tests/` -/

/-- The `n` bytes stored at the addresses `addr`, `addr + 1`, …: an observation of the
memory content, used to state what a block holds. -/
def load (addr n : Nat) (w : Registry) : List Nat :=
  (List.range n).map fun i => w.mem (addr + i)

/-- A write of the bytes `bytes` at the addresses `addr`, `addr + 1`, …, as the test programs
make into the block they have just allocated (`*x = 42`, `arr[i] = i`); it only serves to
build the two states below, where the bytes written lie inside that block. -/
def store (addr : Nat) (bytes : List Nat) (w : Registry) : Registry :=
  { w with mem := fun a =>
      if addr ≤ a ∧ a < addr + bytes.length then bytes.getD (a - addr) 0 else w.mem a }

/-- The four bytes of an `int` holding `v`, least significant byte first. -/
def int_bytes (v : Nat) : List Nat :=
  [v % 256, v / 256 % 256, v / 65536 % 256, v / 16777216 % 256]

/-- The state of `tests/copy.c` after `x = alloc(sizeof(int)); *x = 42;`, `malloc` having
returned the address `5`: the block of `4` bytes at `5` is live and tracked. -/
def copyTestState : Registry :=
  store 5 (int_bytes 42) ⟨some ⟨.node 5 .nil .nil 1⟩, fun _ => 0, [5], [], [(5, 4)]⟩

/-- The state of `tests/resize.c` after `arr = alloc(sizeof(int) * 8)` and the loop
`arr[i] = i` for `i < 8`, `malloc` having returned the address `33`: the block of `32` bytes
at `33` is live and tracked. -/
def resizeTestState : Registry :=
  (List.range 8).foldl (fun w i => store (33 + 4 * i) (int_bytes i) w)
    ⟨some ⟨.node 33 .nil .nil 1⟩, fun _ => 0, [33], [], [(33, 32)]⟩

/-- An allocator whose block lies above every tracked address and above the `size` bytes
that follow it. -/
def spacedAlloc (w : Registry) (size : Nat) : Nat := (tracked w).foldr max 0 + size + 1

/-- An allocator whose every call fails: `malloc` returns `NULL`. -/
def failingAlloc (_w : Registry) (_size : Nat) : Nat := 0

/-! ## Auxiliary definitions for the proofs -/

/-- The sample set obtained by inserting `2`, `1` and `3` into the empty tree. -/
def sampleTree : AvlTree := ⟨.node 2 (.node 1 .nil .nil 1) (.node 3 .nil .nil 1) 2⟩

/-- The pair `(N h, N (h + 1))` for the recurrence `N 0 = 0`, `N 1 = 1`,
`N (h + 2) = N h + N (h + 1) + 1`. -/
def minNodesPair : Nat → Nat × Nat
  | 0 => (0, 1)
  | h + 1 => ((minNodesPair h).2, (minNodesPair h).1 + (minNodesPair h).2 + 1)

/-- The least number of nodes of a tree of height `h` whose balance factors lie in
`[-1, 1]`. -/
def minNodes (h : Nat) : Nat := (minNodesPair h).1

/-- The state of the registry is consistent: `gc` points to a tree that satisfies the
invariant, is ordered, and holds exactly the addresses allocated and not yet freed; no
address was returned twice by `malloc` or passed twice to `free`, and only allocated
addresses were freed. -/
def RegInv (w : Registry) : Prop :=
  ∃ t, w.gc = some t ∧ AvlInv t.root ∧ Ordered t.root ∧
    w.allocated.Nodup ∧ w.freed.Nodup ∧ (∀ a ∈ w.freed, a ∈ w.allocated) ∧
    ∀ a, a ∈ inorder t.root ↔ a ∈ w.allocated ∧ a ∉ w.freed

/-! ## Lemmas -/

@[simp] theorem get_height_nil : avlnode_get_height .nil = 0 := rfl

@[simp] theorem get_height_node (k : Nat) (l r : AvlNode) (h : Int) :
    avlnode_get_height (.node k l r h) = h := rfl

theorem height_nonneg : ∀ {t : AvlNode}, HeightsOk t → 0 ≤ avlnode_get_height t
  | .nil, _ => le_refl _
  | .node _ l r h, ⟨hl, hr, hh⟩ => by
    have := height_nonneg hl
    have := height_nonneg hr
    simp only [get_height_nil, get_height_node]
    omega

theorem height_pos {k : Nat} {l r : AvlNode} {h : Int} (ht : HeightsOk (.node k l r h)) :
    1 ≤ h := by
  obtain ⟨hl, hr, hh⟩ := ht
  have := height_nonneg hl
  have := height_nonneg hr
  omega

theorem eq_nil_of_height_le_zero {t : AvlNode} (ht : HeightsOk t)
    (h0 : avlnode_get_height t ≤ 0) : t = .nil := by
  cases t with
  | nil => rfl
  | node k l r h =>
    have := height_pos ht
    simp only [get_height_nil, get_height_node] at h0
    omega

/-- Without a rotation: when the children's heights differ by at most one, `avlnode_rebalance`
only recomputes the stored height. -/
theorem rebalance_of_close (k : Nat) (l r : AvlNode) (h0 : Int)
    (h1 : -1 ≤ avlnode_get_height l - avlnode_get_height r)
    (h2 : avlnode_get_height l - avlnode_get_height r ≤ 1) :
    avlnode_rebalance (.node k l r h0) =
      some (.node k l r (1 + max (avlnode_get_height l) (avlnode_get_height r))) := by
  have e : (if avlnode_get_height l > avlnode_get_height r
      then avlnode_get_height l else avlnode_get_height r) =
      max (avlnode_get_height l) (avlnode_get_height r) := by
    split_ifs <;> omega
  simp only [avlnode_rebalance, avlnode_update_height, e, Option.bind_eq_bind, Option.some_bind,
    avlnode_get_balance]
  rw [if_neg (by omega), if_neg (by omega)]

theorem update_height_node (k : Nat) (l r : AvlNode) (h0 : Int) :
    avlnode_update_height (.node k l r h0) =
      some (.node k l r (1 + max (avlnode_get_height l) (avlnode_get_height r))) := by
  have e : (if avlnode_get_height l > avlnode_get_height r
      then avlnode_get_height l else avlnode_get_height r) =
      max (avlnode_get_height l) (avlnode_get_height r) := by
    split_ifs <;> omega
  simp only [avlnode_update_height, e]

/-- The effect of `avlnode_rebalance` on a node whose subtrees satisfy the invariant and
differ in height by at most two. -/
theorem rebalance_spec (k : Nat) (l r : AvlNode) (h0 : Int)
    (hl : AvlInv l) (hr : AvlInv r)
    (h1 : -2 ≤ avlnode_get_height l - avlnode_get_height r)
    (h2 : avlnode_get_height l - avlnode_get_height r ≤ 2) :
    ∃ t, avlnode_rebalance (.node k l r h0) = some t ∧ AvlInv t ∧
      inorder t = inorder l ++ k :: inorder r ∧
      (avlnode_get_height t = 1 + max (avlnode_get_height l) (avlnode_get_height r) ∨
        (avlnode_get_height t = max (avlnode_get_height l) (avlnode_get_height r) ∧
          (avlnode_get_height l - avlnode_get_height r = 2 ∨
            avlnode_get_height l - avlnode_get_height r = -2))) := by
  by_cases c1 : avlnode_get_height l - avlnode_get_height r = 2
  · -- left-heavy
    have hrn := height_nonneg hr.1
    cases l with
    | nil => simp only [get_height_nil, get_height_node] at c1; omega
    | node lk ll lr lh =>
      obtain ⟨⟨hll, hlr, hlh⟩, ⟨bll, blr, bl1, bl2⟩⟩ := hl
      have hlln := height_nonneg hll
      have hlrn := height_nonneg hlr
      simp only [get_height_nil, get_height_node] at c1 hlh h1 h2 ⊢
      by_cases c2 : avlnode_get_height ll ≥ avlnode_get_height lr
      · refine ⟨.node lk ll (.node k lr r (1 + max (avlnode_get_height lr) (avlnode_get_height r)))
          (1 + max (avlnode_get_height ll)
            (1 + max (avlnode_get_height lr) (avlnode_get_height r))), ?_, ?_, ?_, ?_⟩
        · simp only [avlnode_rebalance, update_height_node, Option.bind_eq_bind,
            Option.some_bind, avlnode_get_balance, get_height_node, avlnode_rotate_right]
          rw [if_pos (by omega), if_pos c2]
        · refine ⟨⟨hll, ⟨hlr, hr.1, rfl⟩, rfl⟩, ⟨bll, ⟨blr, hr.2, ?_, ?_⟩, ?_, ?_⟩⟩ <;>
            (try simp only [get_height_nil, get_height_node]) <;> omega
        · simp [inorder]
        · simp only [get_height_nil, get_height_node]; omega
      · cases lr with
        | nil => simp only [get_height_nil, get_height_node] at c2 hlh bl1 bl2; omega
        | node mk ml mr mh =>
          obtain ⟨hml, hmr, hmh⟩ := hlr
          obtain ⟨bml, bmr, bm1, bm2⟩ := blr
          have hmln := height_nonneg hml
          have hmrn := height_nonneg hmr
          simp only [get_height_nil, get_height_node] at c2 hlh bl1 bl2 hmh hlrn
          refine ⟨.node mk
            (.node lk ll ml (1 + max (avlnode_get_height ll) (avlnode_get_height ml)))
            (.node k mr r (1 + max (avlnode_get_height mr) (avlnode_get_height r)))
            (1 + max (1 + max (avlnode_get_height ll) (avlnode_get_height ml))
              (1 + max (avlnode_get_height mr) (avlnode_get_height r))), ?_, ?_, ?_, ?_⟩
          · simp only [avlnode_rebalance, update_height_node, Option.bind_eq_bind,
              Option.some_bind, avlnode_get_balance, get_height_node, avlnode_rotate_right,
              avlnode_rotate_left]
            rw [if_pos (by omega), if_neg c2]
          · refine ⟨⟨⟨hll, hml, rfl⟩, ⟨hmr, hr.1, rfl⟩, rfl⟩,
              ⟨⟨bll, bml, ?_, ?_⟩, ⟨bmr, hr.2, ?_, ?_⟩, ?_, ?_⟩⟩ <;>
              (try simp only [get_height_nil, get_height_node]) <;> omega
          · simp [inorder]
          · simp only [get_height_nil, get_height_node]; omega
  · by_cases c3 : avlnode_get_height l - avlnode_get_height r = -2
    · -- right-heavy
      have hln := height_nonneg hl.1
      cases r with
      | nil => simp only [get_height_nil, get_height_node] at c3; omega
      | node rk rl rr rh =>
        obtain ⟨⟨hrl, hrr, hrh⟩, ⟨brl, brr, br1, br2⟩⟩ := hr
        have hrln := height_nonneg hrl
        have hrrn := height_nonneg hrr
        simp only [get_height_nil, get_height_node] at c3 hrh h1 h2 ⊢
        by_cases c2 : avlnode_get_height rr ≥ avlnode_get_height rl
        · refine ⟨.node rk (.node k l rl (1 + max (avlnode_get_height l) (avlnode_get_height rl)))
            rr (1 + max (1 + max (avlnode_get_height l) (avlnode_get_height rl))
              (avlnode_get_height rr)), ?_, ?_, ?_, ?_⟩
          · simp only [avlnode_rebalance, update_height_node, Option.bind_eq_bind,
              Option.some_bind, avlnode_get_balance, get_height_node, avlnode_rotate_left]
            rw [if_neg (by omega), if_pos (by omega), if_pos c2]
          · refine ⟨⟨⟨hl.1, hrl, rfl⟩, hrr, rfl⟩, ⟨⟨hl.2, brl, ?_, ?_⟩, brr, ?_, ?_⟩⟩ <;>
              (try simp only [get_height_nil, get_height_node]) <;> omega
          · simp [inorder]
          · simp only [get_height_nil, get_height_node]; omega
        · cases rl with
          | nil => simp only [get_height_nil, get_height_node] at c2 hrh br1 br2; omega
          | node mk ml mr mh =>
            obtain ⟨hml, hmr, hmh⟩ := hrl
            obtain ⟨bml, bmr, bm1, bm2⟩ := brl
            have hmln := height_nonneg hml
            have hmrn := height_nonneg hmr
            simp only [get_height_nil, get_height_node] at c2 hrh br1 br2 hmh hrln
            refine ⟨.node mk
              (.node k l ml (1 + max (avlnode_get_height l) (avlnode_get_height ml)))
              (.node rk mr rr (1 + max (avlnode_get_height mr) (avlnode_get_height rr)))
              (1 + max (1 + max (avlnode_get_height l) (avlnode_get_height ml))
                (1 + max (avlnode_get_height mr) (avlnode_get_height rr))), ?_, ?_, ?_, ?_⟩
            · simp only [avlnode_rebalance, update_height_node, Option.bind_eq_bind,
                Option.some_bind, avlnode_get_balance, get_height_node, avlnode_rotate_right,
                avlnode_rotate_left]
              rw [if_neg (by omega), if_pos (by omega), if_neg c2]
            · refine ⟨⟨⟨hl.1, hml, rfl⟩, ⟨hmr, hrr, rfl⟩, rfl⟩,
                ⟨⟨hl.2, bml, ?_, ?_⟩, ⟨bmr, brr, ?_, ?_⟩, ?_, ?_⟩⟩ <;>
                (try simp only [get_height_nil, get_height_node]) <;> omega
            · simp [inorder]
            · simp only [get_height_nil, get_height_node]; omega
    · refine ⟨_, rebalance_of_close k l r h0 (by omega) (by omega), ?_, rfl, Or.inl rfl⟩
      exact ⟨⟨hl.1, hr.1, rfl⟩, ⟨hl.2, hr.2, by omega, by omega⟩⟩

/-! ### Lists of keys -/

theorem orderedInsert_append_of_le (a b : Nat) (R : List Nat) (hab : a ≤ b) :
    ∀ L : List Nat, (L ++ b :: R).orderedInsert (· ≤ ·) a = L.orderedInsert (· ≤ ·) a ++ b :: R
  | [] => by simp [List.orderedInsert, hab]
  | x :: L => by
    by_cases hx : a ≤ x
    · simp [List.orderedInsert, hx]
    · simp [List.orderedInsert, hx, orderedInsert_append_of_le a b R hab L]

theorem orderedInsert_append_of_gt (a b : Nat) (R : List Nat) (hab : b < a) :
    ∀ L : List Nat, (∀ x ∈ L, x < a) →
      (L ++ b :: R).orderedInsert (· ≤ ·) a = L ++ b :: R.orderedInsert (· ≤ ·) a
  | [], _ => by simp [List.orderedInsert, Nat.not_le.2 hab]
  | x :: L, h => by
    have hx : ¬ a ≤ x := Nat.not_le.2 (h x (List.mem_cons_self _ _))
    have := orderedInsert_append_of_gt a b R hab L (fun y hy => h y (List.mem_cons_of_mem _ hy))
    simp [List.orderedInsert, hx, this]

theorem pairwise_orderedInsert (a : Nat) (L : List Nat) (hL : L.Pairwise (· < ·))
    (ha : a ∉ L) : (L.orderedInsert (· ≤ ·) a).Pairwise (· < ·) := by
  have hs : L.Sorted (· ≤ ·) := hL.imp (fun h => Nat.le_of_lt h)
  have h1 : (L.orderedInsert (· ≤ ·) a).Sorted (· ≤ ·) := hs.orderedInsert a L
  have hn : L.Nodup := hL.imp (fun h => Nat.ne_of_lt h)
  have h2 : (L.orderedInsert (· ≤ ·) a).Nodup :=
    (List.perm_orderedInsert (· ≤ ·) a L).nodup_iff.2 (List.nodup_cons.2 ⟨ha, hn⟩)
  exact h1.lt_of_le h2

theorem ordered_node_iff (k : Nat) (l r : AvlNode) (h : Int) :
    Ordered (.node k l r h) ↔
      Ordered l ∧ Ordered r ∧ (∀ x ∈ inorder l, x < k) ∧ (∀ x ∈ inorder r, k < x) := by
  unfold Ordered
  simp only [inorder, List.pairwise_append, List.pairwise_cons, List.mem_cons]
  constructor
  · rintro ⟨h1, ⟨h2, h3⟩, h4⟩
    exact ⟨h1, h3, fun x hx => h4 x hx k (Or.inl rfl), h2⟩
  · rintro ⟨h1, h2, h3, h4⟩
    refine ⟨h1, ⟨h4, h2⟩, ?_⟩
    rintro x hx y (rfl | hy)
    · exact h3 x hx
    · exact lt_trans (h3 x hx) (h4 y hy)

/-- A tree that satisfies the invariant is returned as it is by the closing rebalance. -/
theorem rebalance_of_inv {k : Nat} {l r : AvlNode} {h : Int} (ht : AvlInv (.node k l r h)) :
    avlnode_rebalance (.node k l r h) = some (.node k l r h) := by
  obtain ⟨⟨_, _, hh⟩, ⟨_, _, b1, b2⟩⟩ := ht
  rw [rebalance_of_close k l r h b1 b2, ← hh]

theorem inv_left {k : Nat} {l r : AvlNode} {h : Int} (ht : AvlInv (.node k l r h)) :
    AvlInv l := ⟨ht.1.1, ht.2.1⟩

theorem inv_right {k : Nat} {l r : AvlNode} {h : Int} (ht : AvlInv (.node k l r h)) :
    AvlInv r := ⟨ht.1.2.1, ht.2.2.1⟩

/-- The effect of `avlnode_insert` on a tree that satisfies the invariant and is ordered. -/
theorem insert_spec : ∀ (t : AvlNode) (key : Nat), AvlInv t → Ordered t →
    ∃ t', avlnode_insert t key = some t' ∧ AvlInv t' ∧ Ordered t' ∧
      inorder t' = (if key ∈ inorder t then inorder t
        else (inorder t).orderedInsert (· ≤ ·) key) ∧
      (avlnode_get_height t' = avlnode_get_height t ∨
        avlnode_get_height t' = avlnode_get_height t + 1)
  | .nil, key, _, _ => by
    refine ⟨.node key .nil .nil 1, ?_, ?_, ?_, ?_, ?_⟩
    · rw [avlnode_insert, rebalance_of_close _ _ _ _ (by simp) (by simp)]; rfl
    · exact ⟨⟨trivial, trivial, rfl⟩, ⟨trivial, trivial, by simp, by simp⟩⟩
    · simp [Ordered, inorder]
    · simp [inorder]
    · simp
  | .node k l r h, key, hi, ho => by
    obtain ⟨ol, or_, hlk, hkr⟩ := (ordered_node_iff k l r h).1 ho
    have hh := hi.1.2.2
    have b1 := hi.2.2.2.1
    have b2 := hi.2.2.2.2
    have key_ord : ∀ t' : AvlNode, inorder t' = (if key ∈ inorder (.node k l r h)
        then inorder (.node k l r h)
        else (inorder (.node k l r h)).orderedInsert (· ≤ ·) key) → Ordered t' := by
      intro t' e
      unfold Ordered
      rw [e]
      split_ifs with hm
      · exact ho
      · exact pairwise_orderedInsert key _ ho hm
    rcases Nat.lt_trichotomy key k with hlt | heq | hgt
    · obtain ⟨l', e1, il', _, el', hl'⟩ := insert_spec l key (inv_left hi) ol
      obtain ⟨t', e2, it', et', ht'⟩ := rebalance_spec k l' r h il' (inv_right hi)
        (by omega) (by omega)
      have hnr : key ∉ inorder r := fun hm => by have := hkr key hm; omega
      have e3 : inorder t' = (if key ∈ inorder (.node k l r h)
          then inorder (.node k l r h)
          else (inorder (.node k l r h)).orderedInsert (· ≤ ·) key) := by
        rw [et', el']
        simp only [inorder, List.mem_append, List.mem_cons]
        by_cases hm : key ∈ inorder l
        · simp [hm]
        · have : ¬ (key ∈ inorder l ∨ key = k ∨ key ∈ inorder r) := by
            rintro (h | h | h)
            · exact hm h
            · omega
            · exact hnr h
          rw [if_neg hm, if_neg this, orderedInsert_append_of_le key k _ (Nat.le_of_lt hlt)]
      refine ⟨t', ?_, it', key_ord t' e3, e3, ?_⟩
      · rw [avlnode_insert, if_pos hlt, e1]; exact e2
      · simp only [get_height_node]; omega
    · subst heq
      refine ⟨.node key l r h, ?_, hi, ho, ?_, Or.inl rfl⟩
      · rw [avlnode_insert, if_neg (lt_irrefl _), if_neg (lt_irrefl _)]
        exact rebalance_of_inv hi
      · simp [inorder]
    · obtain ⟨r', e1, ir', _, er', hr'⟩ := insert_spec r key (inv_right hi) or_
      obtain ⟨t', e2, it', et', ht'⟩ := rebalance_spec k l r' h (inv_left hi) ir'
        (by omega) (by omega)
      have hnl : key ∉ inorder l := fun hm => by have := hlk key hm; omega
      have e3 : inorder t' = (if key ∈ inorder (.node k l r h)
          then inorder (.node k l r h)
          else (inorder (.node k l r h)).orderedInsert (· ≤ ·) key) := by
        rw [et', er']
        simp only [inorder, List.mem_append, List.mem_cons]
        by_cases hm : key ∈ inorder r
        · simp [hm]
        · have : ¬ (key ∈ inorder l ∨ key = k ∨ key ∈ inorder r) := by
            rintro (h | h | h)
            · exact hnl h
            · omega
            · exact hm h
          rw [if_neg hm, if_neg this, orderedInsert_append_of_gt key k _ hgt _
            (fun x hx => lt_trans (hlk x hx) hgt)]
      refine ⟨t', ?_, it', key_ord t' e3, e3, ?_⟩
      · rw [avlnode_insert, if_neg (by omega), if_pos hgt, e1]; exact e2
      · simp only [get_height_node]; omega

/-- The closing `if (*node != NULL) *node = avlnode_rebalance(*node)` leaves a tree that
satisfies the invariant as it is. -/
theorem remove_finish_of_inv : ∀ {t : AvlNode}, AvlInv t → avlnode_remove_finish t = some t
  | .nil, _ => rfl
  | .node _ _ _ _, ht => by rw [avlnode_remove_finish]; exact rebalance_of_inv ht

/-- The loop of `avlnode_remove` ends on the node holding the first key of the in-order
sequence. -/
theorem remove_loop_spec : ∀ (t : AvlNode), t ≠ .nil →
    ∃ tk tr th, avlnode_remove_loop t = some (.node tk .nil tr th) ∧
      ∃ rest, inorder t = tk :: rest
  | .nil, h => absurd rfl h
  | .node k .nil r h, _ => ⟨k, r, h, rfl, inorder r, rfl⟩
  | .node k (.node lk ll lr lh) r h, _ => by
    obtain ⟨tk, tr, th, e, rest, er⟩ := remove_loop_spec (.node lk ll lr lh) (by simp)
    refine ⟨tk, tr, th, ?_, rest ++ k :: inorder r, ?_⟩
    · rw [avlnode_remove_loop]; exact e
    · rw [inorder, er]; rfl

theorem erase_of_pairwise_cons {L : List Nat} (k : Nat) (h : ∀ x ∈ L, x < k)
    (R : List Nat) : (L ++ k :: R).erase k = L ++ R := by
  have hk : k ∉ L := fun hm => lt_irrefl _ (h k hm)
  rw [List.erase_append_right _ hk, List.erase_cons_head]

/-- The effect of `avlnode_remove` on a tree that satisfies the invariant and is ordered. -/
theorem remove_spec : ∀ (t : AvlNode) (key : Nat), AvlInv t → Ordered t →
    ∃ t', avlnode_remove t key = some t' ∧ AvlInv t' ∧ Ordered t' ∧
      inorder t' = (inorder t).erase key ∧
      (avlnode_get_height t' = avlnode_get_height t ∨
        avlnode_get_height t' = avlnode_get_height t - 1)
  | .nil, key, hi, ho => ⟨.nil, rfl, hi, ho, rfl, Or.inl rfl⟩
  | .node k l r h, key, hi, ho => by
    obtain ⟨ol, or_, hlk, hkr⟩ := (ordered_node_iff k l r h).1 ho
    have hh := hi.1.2.2
    have b1 := hi.2.2.2.1
    have b2 := hi.2.2.2.2
    have hln := height_nonneg hi.1.1
    have hrn := height_nonneg hi.1.2.1
    have key_ord : ∀ t' : AvlNode, inorder t' = (inorder (.node k l r h)).erase key →
        Ordered t' := by
      intro t' e
      unfold Ordered
      rw [e]
      exact ho.sublist (List.erase_sublist _ _)
    rcases Nat.lt_trichotomy key k with hlt | heq | hgt
    · obtain ⟨l', e1, il', _, el', hl'⟩ := remove_spec l key (inv_left hi) ol
      obtain ⟨t', e2, it', et', ht'⟩ := rebalance_spec k l' r h il' (inv_right hi)
        (by omega) (by omega)
      have hnr : key ∉ inorder r := fun hm => by have := hkr key hm; omega
      have e3 : inorder t' = (inorder (.node k l r h)).erase key := by
        rw [et', el', inorder]
        by_cases hm : key ∈ inorder l
        · rw [List.erase_append_left _ hm]
        · rw [List.erase_append_right _ hm, List.erase_of_not_mem hm,
            List.erase_cons_tail (by simpa using (Nat.ne_of_lt hlt).symm),
            List.erase_of_not_mem hnr]
      refine ⟨t', ?_, it', key_ord t' e3, e3, ?_⟩
      · rw [avlnode_remove, if_pos hlt, e1]; exact e2
      · simp only [get_height_node]; omega
    · subst heq
      by_cases cl : l = .nil
      · subst cl
        refine ⟨r, ?_, inv_right hi, or_, ?_, ?_⟩
        · rw [avlnode_remove, if_neg (lt_irrefl _), if_neg (lt_irrefl _), if_pos rfl]
          exact remove_finish_of_inv (inv_right hi)
        · simp [inorder]
        · simp only [get_height_node, get_height_nil] at hh ⊢; omega
      · by_cases cr : r = .nil
        · subst cr
          refine ⟨l, ?_, inv_left hi, ol, ?_, ?_⟩
          · rw [avlnode_remove, if_neg (lt_irrefl _), if_neg (lt_irrefl _), if_neg cl,
              if_pos rfl]
            exact remove_finish_of_inv (inv_left hi)
          · rw [inorder, erase_of_pairwise_cons key hlk]; simp [inorder]
          · simp only [get_height_node, get_height_nil] at hh ⊢; omega
        · obtain ⟨tk, tr, th, e0, rest, erest⟩ := remove_loop_spec r cr
          obtain ⟨r', e1, ir', _, er', hr'⟩ := remove_spec r tk (inv_right hi) or_
          obtain ⟨t', e2, it', et', ht'⟩ := rebalance_spec tk l r' h (inv_left hi) ir'
            (by omega) (by omega)
          have e3 : inorder t' = (inorder (.node key l r h)).erase key := by
            rw [et', er', inorder, erase_of_pairwise_cons key hlk, erest,
              List.erase_cons_head]
          refine ⟨t', ?_, it', key_ord t' e3, e3, ?_⟩
          · rw [avlnode_remove, if_neg (lt_irrefl _), if_neg (lt_irrefl _), if_neg cl,
              if_neg cr, e0]
            simp only [Option.bind_eq_bind, Option.some_bind, e1]
            exact e2
          · simp only [get_height_node]; omega
    · obtain ⟨r', e1, ir', _, er', hr'⟩ := remove_spec r key (inv_right hi) or_
      obtain ⟨t', e2, it', et', ht'⟩ := rebalance_spec k l r' h (inv_left hi) ir'
        (by omega) (by omega)
      have hnl : key ∉ inorder l := fun hm => by have := hlk key hm; omega
      have e3 : inorder t' = (inorder (.node k l r h)).erase key := by
        rw [et', er', inorder, List.erase_append_right _ hnl,
          List.erase_cons_tail (by simpa using (Nat.ne_of_lt hgt))]
      refine ⟨t', ?_, it', key_ord t' e3, e3, ?_⟩
      · rw [avlnode_remove, if_neg (by omega), if_pos hgt, e1]; exact e2
      · simp only [get_height_node]; omega

/-! ### Whole trees and sequences of calls -/

theorem size_eq_length : ∀ t : AvlNode, size t = (inorder t).length
  | .nil => rfl
  | .node _ l r _ => by
    simp only [size, inorder, List.length_append, List.length_cons, size_eq_length l,
      size_eq_length r]
    omega

theorem iter_eq_foldl {σ : Type} (func : Nat → σ → σ) :
    ∀ (t : AvlNode) (s : σ), avlnode_iter t func s = (inorder t).foldl (fun s k => func k s) s
  | .nil, _ => rfl
  | .node k l r _, s => by
    simp only [avlnode_iter, inorder, List.foldl_append, List.foldl_cons, iter_eq_foldl func l,
      iter_eq_foldl func r]

theorem iter_destroy_eq_foldl {σ : Type} (func : Nat → σ → σ) :
    ∀ (t : AvlNode) (s : σ),
      avlnode_iter_destroy t func s = (postorder t).foldl (fun s k => func k s) s
  | .nil, _ => rfl
  | .node k l r _, s => by
    simp only [avlnode_iter_destroy, postorder, List.foldl_append, List.foldl_cons,
      List.foldl_nil, iter_destroy_eq_foldl func l, iter_destroy_eq_foldl func r]

theorem foldl_record (l : List Nat) :
    ∀ visited : List Nat, l.foldl (fun s k => record k s) visited = visited ++ l := by
  induction l with
  | nil => intro v; simp
  | cons x xs ih =>
    intro v
    rw [List.foldl_cons, ih, record, List.append_assoc]
    rfl

theorem iter_record (t : AvlNode) (visited : List Nat) :
    avlnode_iter t record visited = visited ++ inorder t := by
  rw [iter_eq_foldl, foldl_record]

theorem iter_destroy_record (t : AvlNode) (visited : List Nat) :
    avlnode_iter_destroy t record visited = visited ++ postorder t := by
  rw [iter_destroy_eq_foldl, foldl_record]

theorem postorder_perm_inorder : ∀ t : AvlNode, (postorder t).Perm (inorder t)
  | .nil => List.Perm.refl _
  | .node k l r _ => by
    simp only [postorder, inorder]
    refine (postorder_perm_inorder l).append ?_
    exact (List.perm_append_singleton k _).trans ((postorder_perm_inorder r).cons k)

/-- One call keeps the invariant and the order, and changes the key set as the contract
says. -/
theorem apply_spec (t : AvlTree) (op : AvlOp) (hi : AvlInv t.root) (ho : Ordered t.root) :
    ∃ t', avl_apply t op = some t' ∧ AvlInv t'.root ∧ Ordered t'.root ∧
      (inorder t'.root).toFinset = keysAfter [op] (inorder t.root).toFinset := by
  cases op with
  | insert k =>
    obtain ⟨r, e, ir, or_, er, _⟩ := insert_spec t.root k hi ho
    refine ⟨⟨r⟩, by simp [avl_apply, avl_insert, e], ir, or_, ?_⟩
    ext x
    simp only [er, keysAfter, Finset.mem_insert, List.mem_toFinset]
    split_ifs with hm
    · constructor
      · exact Or.inr
      · rintro (rfl | h)
        · exact hm
        · exact h
    · simp [List.mem_orderedInsert]
  | remove k =>
    obtain ⟨r, e, ir, or_, er, _⟩ := remove_spec t.root k hi ho
    refine ⟨⟨r⟩, by simp [avl_apply, avl_remove, e], ir, or_, ?_⟩
    have hn : (inorder t.root).Nodup := ho.imp (fun h => Nat.ne_of_lt h)
    ext x
    simp only [er, keysAfter, Finset.mem_erase, List.mem_toFinset, hn.mem_erase_iff]

theorem keysAfter_append (ops₁ ops₂ : List AvlOp) :
    ∀ s : Finset Nat, keysAfter (ops₁ ++ ops₂) s = keysAfter ops₂ (keysAfter ops₁ s) := by
  induction ops₁ with
  | nil => intro s; rfl
  | cons op ops ih =>
    intro s
    cases op <;> simp [keysAfter, ih]

/-- A sequence of calls runs to completion, keeps the invariant and the order, and changes
the key set as the contract says. -/
theorem run_spec : ∀ (ops : List AvlOp) (t : AvlTree), AvlInv t.root → Ordered t.root →
    ∃ t', avl_run ops t = some t' ∧ AvlInv t'.root ∧ Ordered t'.root ∧
      (inorder t'.root).toFinset = keysAfter ops (inorder t.root).toFinset
  | [], t, hi, ho => ⟨t, rfl, hi, ho, rfl⟩
  | op :: ops, t, hi, ho => by
    obtain ⟨t1, e1, i1, o1, k1⟩ := apply_spec t op hi ho
    obtain ⟨t2, e2, i2, o2, k2⟩ := run_spec ops t1 i1 o1
    refine ⟨t2, by simp [avl_run, e1, e2], i2, o2, ?_⟩
    rw [k2, k1]
    exact (keysAfter_append [op] ops _).symm

theorem inv_new : AvlInv avl_new.root := ⟨trivial, trivial⟩

theorem ordered_new : Ordered avl_new.root := List.Pairwise.nil

theorem reachable_inv {t : AvlTree} (h : Reachable t) : AvlInv t.root ∧ Ordered t.root := by
  obtain ⟨ops, e⟩ := h
  obtain ⟨t', e', i, o, _⟩ := run_spec ops avl_new inv_new ordered_new
  rw [e] at e'
  cases e'
  exact ⟨i, o⟩

/-! ### Calls that change nothing -/

theorem rebalance_rotations_of_inv {k : Nat} {l r : AvlNode} {h : Int}
    (ht : AvlInv (.node k l r h)) : avlnode_rebalance_rotations (.node k l r h) = 0 := by
  obtain ⟨_, ⟨_, _, b1, b2⟩⟩ := ht
  simp only [avlnode_rebalance_rotations, update_height_node, avlnode_get_balance,
    get_height_node]
  rw [if_neg (by omega), if_neg (by omega)]

/-- Inserting a key that is present returns the tree as it is, without calling `malloc` or a
rotation. -/
theorem insert_present : ∀ (t : AvlNode) (key : Nat), AvlInv t → Ordered t →
    key ∈ inorder t →
    avlnode_insert t key = some t ∧ avlnode_insert_mallocs t key = 0 ∧
      avlnode_insert_rotations t key = 0
  | .nil, _, _, _, hm => by simp [inorder] at hm
  | .node k l r h, key, hi, ho, hm => by
    obtain ⟨ol, or_, hlk, hkr⟩ := (ordered_node_iff k l r h).1 ho
    simp only [inorder, List.mem_append, List.mem_cons] at hm
    rcases Nat.lt_trichotomy key k with hlt | heq | hgt
    · have hml : key ∈ inorder l := by
        rcases hm with h | h | h
        · exact h
        · omega
        · have := hkr key h; omega
      obtain ⟨e1, e2, e3⟩ := insert_present l key (inv_left hi) ol hml
      refine ⟨?_, ?_, ?_⟩
      · rw [avlnode_insert, if_pos hlt, e1]; exact rebalance_of_inv hi
      · rw [avlnode_insert_mallocs, if_pos hlt, e2]
      · rw [avlnode_insert_rotations, if_pos hlt, e1, e3, Nat.zero_add]
        exact rebalance_rotations_of_inv hi
    · subst heq
      refine ⟨?_, ?_, ?_⟩
      · rw [avlnode_insert, if_neg (lt_irrefl _), if_neg (lt_irrefl _)]
        exact rebalance_of_inv hi
      · rw [avlnode_insert_mallocs, if_neg (lt_irrefl _), if_neg (lt_irrefl _)]
      · rw [avlnode_insert_rotations, if_neg (lt_irrefl _), if_neg (lt_irrefl _)]
        exact rebalance_rotations_of_inv hi
    · have hmr : key ∈ inorder r := by
        rcases hm with h | h | h
        · have := hlk key h; omega
        · omega
        · exact h
      obtain ⟨e1, e2, e3⟩ := insert_present r key (inv_right hi) or_ hmr
      refine ⟨?_, ?_, ?_⟩
      · rw [avlnode_insert, if_neg (by omega), if_pos hgt, e1]; exact rebalance_of_inv hi
      · rw [avlnode_insert_mallocs, if_neg (by omega), if_pos hgt, e2]
      · rw [avlnode_insert_rotations, if_neg (by omega), if_pos hgt, e1, e3, Nat.zero_add]
        exact rebalance_rotations_of_inv hi

/-- Removing a key that no node holds returns the tree as it is. -/
theorem remove_absent : ∀ (t : AvlNode) (key : Nat), AvlInv t → key ∉ inorder t →
    avlnode_remove t key = some t
  | .nil, _, _, _ => rfl
  | .node k l r h, key, hi, hm => by
    simp only [inorder, List.mem_append, List.mem_cons, not_or] at hm
    obtain ⟨hl, hk, hr⟩ := hm
    rcases Nat.lt_trichotomy key k with hlt | heq | hgt
    · rw [avlnode_remove, if_pos hlt, remove_absent l key (inv_left hi) hl]
      exact rebalance_of_inv hi
    · exact absurd heq hk
    · rw [avlnode_remove, if_neg (by omega), if_pos hgt,
        remove_absent r key (inv_right hi) hr]
      exact rebalance_of_inv hi

/-! ### The height bound -/

theorem minNodes_succ_succ (h : Nat) :
    minNodes (h + 2) = minNodes h + minNodes (h + 1) + 1 := rfl

theorem minNodes_le_succ : ∀ h : Nat, minNodes h ≤ minNodes (h + 1)
  | 0 => by decide
  | h + 1 => by rw [minNodes_succ_succ]; omega

theorem minNodes_mono : Monotone minNodes := monotone_nat_of_le_succ minNodes_le_succ

/-- A tree that satisfies the invariant has at least `minNodes` of its height many nodes. -/
theorem minNodes_le_size : ∀ t : AvlNode, AvlInv t →
    minNodes (avlnode_get_height t).toNat ≤ size t
  | .nil, _ => by decide
  | .node k l r h, hi => by
    have il := minNodes_le_size l (inv_left hi)
    have ir := minNodes_le_size r (inv_right hi)
    have hln := height_nonneg hi.1.1
    have hrn := height_nonneg hi.1.2.1
    have hh := hi.1.2.2
    have b1 := hi.2.2.2.1
    have b2 := hi.2.2.2.2
    obtain ⟨a, ha⟩ := Int.eq_ofNat_of_zero_le hln
    obtain ⟨b, hb⟩ := Int.eq_ofNat_of_zero_le hrn
    rw [ha, Int.toNat_ofNat] at il
    rw [hb, Int.toNat_ofNat] at ir
    rw [ha, hb] at hh b1 b2
    simp only [get_height_node, size]
    have e : h.toNat = max a b + 1 := by omega
    rw [e]
    rcases Nat.lt_trichotomy a b with hab | hab | hab
    · have hb' : b = a + 1 := by omega
      subst hb'
      rw [max_eq_right (by omega), minNodes_succ_succ]
      omega
    · subst hab
      rw [max_self]
      cases a with
      | zero => simp [minNodes, minNodesPair]
      | succ a =>
        rw [minNodes_succ_succ]
        have := minNodes_le_succ a
        omega
    · have ha' : a = b + 1 := by omega
      subst ha'
      rw [max_eq_left (by omega), minNodes_succ_succ]
      omega

set_option exponentiation.threshold 4096 in
theorem minNodes_check : ∀ h < 92, 2 ^ (25 * h) ≤ (minNodes h + 2) ^ 36 := by
  decide

theorem minNodes_large : 2 ^ 64 < minNodes 92 := by decide

theorem length_le_of_pairwise_lt {l : List Nat} {B : Nat} (hl : l.Pairwise (· < ·))
    (hB : ∀ x ∈ l, x < B) : l.length ≤ B := by
  have hn : l.Nodup := hl.imp (fun h => Nat.ne_of_lt h)
  have hs : l ⊆ List.range B := fun x hx => List.mem_range.2 (hB x hx)
  simpa using (hn.subperm hs).length_le

theorem keysAfter_subset : ∀ (ops : List AvlOp) (s : Finset Nat) (x : Nat),
    x ∈ keysAfter ops s → x ∈ s ∨ ∃ op ∈ ops, op.key = x
  | [], _, _, h => Or.inl h
  | .insert k :: ops, s, x, h => by
    rcases keysAfter_subset ops _ x h with h | ⟨op, hop, e⟩
    · rcases Finset.mem_insert.1 h with rfl | h
      · exact Or.inr ⟨.insert x, List.mem_cons_self _ _, rfl⟩
      · exact Or.inl h
    · exact Or.inr ⟨op, List.mem_cons_of_mem _ hop, e⟩
  | .remove k :: ops, s, x, h => by
    rcases keysAfter_subset ops _ x h with h | ⟨op, hop, e⟩
    · exact Or.inl (Finset.mem_of_mem_erase h)
    · exact Or.inr ⟨op, List.mem_cons_of_mem _ hop, e⟩

/-- The numeric core of the height bound: a tree with `n ≤ 2 ^ 64` nodes that satisfies the
invariant has height at most `1.44 * log₂ (n + 2)`. -/
theorem height_le_log (t : AvlNode) (hi : AvlInv t) (hn : size t ≤ 2 ^ 64) :
    ((avlnode_get_height t : ℤ) : ℝ) ≤ (1.44 : ℝ) * Real.logb 2 ((size t : ℝ) + 2) := by
  obtain ⟨H, hH⟩ := Int.eq_ofNat_of_zero_le (height_nonneg hi.1)
  have h0 := minNodes_le_size t hi
  rw [hH, Int.toNat_ofNat] at h0
  have hlt : H < 92 := by
    by_contra hc
    have := minNodes_mono (Nat.le_of_not_lt hc)
    have := minNodes_large
    omega
  have hb : 2 ^ (25 * H) ≤ (size t + 2) ^ 36 :=
    le_trans (minNodes_check H hlt) (Nat.pow_le_pow_left (by omega) 36)
  have h1 : ((2 : ℝ)) ^ (25 * H) ≤ ((size t : ℝ) + 2) ^ 36 := by exact_mod_cast hb
  have h2 := Real.logb_le_logb_of_le (b := 2) (by norm_num) (by positivity) h1
  rw [Real.logb_pow, Real.logb_pow, Real.logb_self_eq_one (by norm_num)] at h2
  rw [hH]
  push_cast at h2 ⊢
  linarith

/-! ### The registry -/

theorem foldl_free (l : List Nat) : ∀ w : Registry,
    (l.foldl (fun s k => free k s) w).freed = w.freed ++ l ∧
      (l.foldl (fun s k => free k s) w).allocated = w.allocated ∧
      (l.foldl (fun s k => free k s) w).gc = w.gc := by
  induction l with
  | nil => intro w; simp
  | cons x xs ih =>
    intro w
    obtain ⟨h1, h2, h3⟩ := ih (free x w)
    rw [List.foldl_cons, h1, h2, h3]
    simp [free]

theorem bumpAlloc_fresh (w : Registry) (size : Nat) :
    bumpAlloc w size ≠ 0 ∧ bumpAlloc w size ∉ w.allocated := by
  have key : ∀ l : List Nat, ∀ x ∈ l, x ≤ l.foldr max 0 := by
    intro l
    induction l with
    | nil => intro x hx; simp at hx
    | cons y ys ih =>
      intro x hx
      rcases List.mem_cons.1 hx with rfl | h
      · simp
      · have := ih x h
        simp only [List.foldr_cons]
        omega
  refine ⟨Nat.succ_ne_zero _, fun hm => ?_⟩
  have := key _ _ hm
  unfold bumpAlloc at this
  omega

theorem regInv_startup : RegInv (startup boot) :=
  ⟨avl_new, rfl, inv_new, ordered_new, List.nodup_nil, List.nodup_nil,
    fun a h => by simp [startup, boot] at h,
    fun a => by simp [avl_new, inorder, startup, boot]⟩

/-- One call on a consistent registry, with a fresh address from `malloc` and with `drop`
called on a tracked address only, succeeds and leaves the registry consistent; the logs grow
by the address concerned. -/
theorem reg_apply_spec (malloc : Registry → Nat → Nat)
    (hfresh : ∀ w size, malloc w size ≠ 0 ∧ malloc w size ∉ w.allocated)
    (w : Registry) (op : RegOp) (hw : RegInv w)
    (hop : dropsTracked malloc [op] w = true) :
    ∃ w', reg_apply malloc w op = some w' ∧ RegInv w' ∧
      w'.freed = w.freed ++ droppedBy [op] ∧
      w'.allocated.length = w.allocated.length + allocCalls [op] := by
  obtain ⟨t, hgc, hi, ho, na, nf, hfa, hm⟩ := hw
  cases op with
  | alloc n =>
    have hp := (hfresh w n).2
    have hpt : malloc w n ∉ inorder t.root := fun h => hp ((hm _).1 h).1
    obtain ⟨r, e, ir, or_, er, _⟩ := insert_spec t.root (malloc w n) hi ho
    rw [if_neg hpt] at er
    refine ⟨{ malloc_effect (malloc w n) n w with gc := some ⟨r⟩ }, ?_,
      ⟨⟨r⟩, rfl, ir, or_, ?_, nf, ?_, ?_⟩, ?_, ?_⟩
    · simp [reg_apply, alloc, hgc, avl_insert, e]
    · exact List.nodup_append.2 ⟨na, List.nodup_singleton _,
        List.disjoint_singleton.2 hp⟩
    · intro a ha
      exact List.mem_append_left _ (hfa a ha)
    · intro a
      show a ∈ inorder r ↔ a ∈ w.allocated ++ [malloc w n] ∧ a ∉ w.freed
      rw [er, List.mem_orderedInsert, hm a, List.mem_append, List.mem_singleton]
      constructor
      · rintro (rfl | ⟨h1, h2⟩)
        · exact ⟨Or.inr rfl, fun hf => hp (hfa _ hf)⟩
        · exact ⟨Or.inl h1, h2⟩
      · rintro ⟨h1 | rfl, h2⟩
        · exact Or.inr ⟨h1, h2⟩
        · exact Or.inl rfl
    · simp [droppedBy, malloc_effect]
    · simp [allocCalls, malloc_effect]
  | drop p =>
    have hpt : p ∈ inorder t.root := by
      have := hop
      simp only [dropsTracked, tracked, hgc, Bool.and_eq_true, decide_eq_true_eq] at this
      exact this.1
    obtain ⟨r, e, ir, or_, er, _⟩ := remove_spec t.root p hi ho
    have hn : (inorder t.root).Nodup := ho.imp (fun h => Nat.ne_of_lt h)
    have hpf : p ∉ w.freed := ((hm p).1 hpt).2
    refine ⟨free p { w with gc := some ⟨r⟩ }, ?_, ⟨⟨r⟩, rfl, ir, or_, na, ?_, ?_, ?_⟩, ?_, ?_⟩
    · simp [reg_apply, drop, hgc, avl_remove, e]
    · exact List.nodup_append.2 ⟨nf, List.nodup_singleton _,
        List.disjoint_singleton.2 hpf⟩
    · intro a ha
      rcases List.mem_append.1 ha with h | h
      · exact hfa a h
      · rw [List.mem_singleton.1 h]; exact ((hm p).1 hpt).1
    · intro a
      show a ∈ inorder r ↔ a ∈ w.allocated ∧ a ∉ w.freed ++ [p]
      rw [er, hn.mem_erase_iff, hm a, List.mem_append, List.mem_singleton]
      tauto
    · simp [droppedBy, free]
    · simp [allocCalls, free]

theorem dropsTracked_cons (malloc : Registry → Nat → Nat) (op : RegOp) (ops : List RegOp)
    (w w' : Registry) (h : dropsTracked malloc (op :: ops) w = true)
    (e : reg_apply malloc w op = some w') :
    dropsTracked malloc [op] w = true ∧ dropsTracked malloc ops w' = true := by
  cases op with
  | alloc n =>
    simp only [dropsTracked, e] at h ⊢
    exact ⟨trivial, h⟩
  | drop p =>
    simp only [dropsTracked, e, Bool.and_eq_true, decide_eq_true_eq] at h ⊢
    exact ⟨⟨h.1, trivial⟩, h.2⟩

theorem dropsTracked_head (malloc : Registry → Nat → Nat) (op : RegOp) (ops : List RegOp)
    (w : Registry) (h : dropsTracked malloc (op :: ops) w = true) :
    dropsTracked malloc [op] w = true := by
  cases op with
  | alloc n =>
    simp only [dropsTracked]
    split <;> rfl
  | drop p =>
    simp only [dropsTracked, Bool.and_eq_true, decide_eq_true_eq] at h ⊢
    refine ⟨h.1, ?_⟩
    split <;> rfl

/-- A sequence of calls on a consistent registry, with a fresh address from each `malloc` and
with `drop` called on tracked addresses only, runs to completion and leaves the registry
consistent; `freed` grows by the dropped addresses, `allocated` by one address per `alloc`. -/
theorem reg_run_spec (malloc : Registry → Nat → Nat)
    (hfresh : ∀ w size, malloc w size ≠ 0 ∧ malloc w size ∉ w.allocated) :
    ∀ (ops : List RegOp) (w : Registry), RegInv w → dropsTracked malloc ops w = true →
      ∃ w', reg_run malloc ops w = some w' ∧ RegInv w' ∧
        w'.freed = w.freed ++ droppedBy ops ∧
        w'.allocated.length = w.allocated.length + allocCalls ops
  | [], w, hw, _ => ⟨w, rfl, hw, by simp [droppedBy], by simp [allocCalls]⟩
  | op :: ops, w, hw, hd => by
    obtain ⟨w₁, e₁, i₁, f₁, a₁⟩ :=
      reg_apply_spec malloc hfresh w op hw (dropsTracked_head malloc op ops w hd)
    obtain ⟨w₂, e₂, i₂, f₂, a₂⟩ :=
      reg_run_spec malloc hfresh ops w₁ i₁ (dropsTracked_cons malloc op ops w w₁ hd e₁).2
    refine ⟨w₂, by simp [reg_run, e₁, e₂], i₂, ?_, ?_⟩
    · rw [f₂, f₁, List.append_assoc]
      cases op <;> simp [droppedBy]
    · rw [a₂, a₁]
      cases op <;> simp only [allocCalls] <;> omega

/-! ### Heights without the order, nodes inside a tree -/

theorem rebalance_rotations_of_close (k : Nat) (l r : AvlNode) (h0 : Int)
    (h1 : -1 ≤ avlnode_get_height l - avlnode_get_height r)
    (h2 : avlnode_get_height l - avlnode_get_height r ≤ 1) :
    avlnode_rebalance_rotations (.node k l r h0) = 0 := by
  simp only [avlnode_rebalance_rotations, update_height_node, avlnode_get_balance,
    get_height_node]
  rw [if_neg (by omega), if_neg (by omega)]

/-- The height after `avlnode_insert`, for a tree that satisfies the invariant; no order of
the keys is assumed. -/
theorem insert_height : ∀ (t : AvlNode) (key : Nat), AvlInv t →
    ∃ t', avlnode_insert t key = some t' ∧ AvlInv t' ∧
      (avlnode_get_height t' = avlnode_get_height t ∨
        avlnode_get_height t' = avlnode_get_height t + 1)
  | .nil, key, _ => by
    refine ⟨.node key .nil .nil 1, ?_, ?_, ?_⟩
    · rw [avlnode_insert, rebalance_of_close _ _ _ _ (by simp) (by simp)]; rfl
    · exact ⟨⟨trivial, trivial, rfl⟩, ⟨trivial, trivial, by simp, by simp⟩⟩
    · simp
  | .node k l r h, key, hi => by
    have hh := hi.1.2.2
    have b1 := hi.2.2.2.1
    have b2 := hi.2.2.2.2
    by_cases hlt : key < k
    · obtain ⟨l', e1, il', hl'⟩ := insert_height l key (inv_left hi)
      obtain ⟨t', e2, it', _, ht'⟩ := rebalance_spec k l' r h il' (inv_right hi)
        (by omega) (by omega)
      refine ⟨t', ?_, it', ?_⟩
      · rw [avlnode_insert, if_pos hlt, e1]; exact e2
      · simp only [get_height_node]; omega
    · by_cases hgt : key > k
      · obtain ⟨r', e1, ir', hr'⟩ := insert_height r key (inv_right hi)
        obtain ⟨t', e2, it', _, ht'⟩ := rebalance_spec k l r' h (inv_left hi) ir'
          (by omega) (by omega)
        refine ⟨t', ?_, it', ?_⟩
        · rw [avlnode_insert, if_neg hlt, if_pos hgt, e1]; exact e2
        · simp only [get_height_node]; omega
      · refine ⟨.node k l r h, ?_, hi, Or.inl rfl⟩
        rw [avlnode_insert, if_neg hlt, if_neg hgt]
        exact rebalance_of_inv hi

/-- The height after `avlnode_remove`, for a tree that satisfies the invariant; no order of
the keys is assumed. -/
theorem remove_height : ∀ (t : AvlNode) (key : Nat), AvlInv t →
    ∃ t', avlnode_remove t key = some t' ∧ AvlInv t' ∧
      (avlnode_get_height t' = avlnode_get_height t ∨
        avlnode_get_height t' = avlnode_get_height t - 1)
  | .nil, _, hi => ⟨.nil, rfl, hi, Or.inl rfl⟩
  | .node k l r h, key, hi => by
    have hh := hi.1.2.2
    have b1 := hi.2.2.2.1
    have b2 := hi.2.2.2.2
    have hln := height_nonneg hi.1.1
    have hrn := height_nonneg hi.1.2.1
    by_cases hlt : key < k
    · obtain ⟨l', e1, il', hl'⟩ := remove_height l key (inv_left hi)
      obtain ⟨t', e2, it', _, ht'⟩ := rebalance_spec k l' r h il' (inv_right hi)
        (by omega) (by omega)
      refine ⟨t', ?_, it', ?_⟩
      · rw [avlnode_remove, if_pos hlt, e1]; exact e2
      · simp only [get_height_node]; omega
    · by_cases hgt : key > k
      · obtain ⟨r', e1, ir', hr'⟩ := remove_height r key (inv_right hi)
        obtain ⟨t', e2, it', _, ht'⟩ := rebalance_spec k l r' h (inv_left hi) ir'
          (by omega) (by omega)
        refine ⟨t', ?_, it', ?_⟩
        · rw [avlnode_remove, if_neg hlt, if_pos hgt, e1]; exact e2
        · simp only [get_height_node]; omega
      · by_cases cl : l = .nil
        · subst cl
          refine ⟨r, ?_, inv_right hi, ?_⟩
          · rw [avlnode_remove, if_neg hlt, if_neg hgt, if_pos rfl]
            exact remove_finish_of_inv (inv_right hi)
          · simp only [get_height_node, get_height_nil] at hh ⊢; omega
        · by_cases cr : r = .nil
          · subst cr
            refine ⟨l, ?_, inv_left hi, ?_⟩
            · rw [avlnode_remove, if_neg hlt, if_neg hgt, if_neg cl, if_pos rfl]
              exact remove_finish_of_inv (inv_left hi)
            · simp only [get_height_node, get_height_nil] at hh ⊢; omega
          · obtain ⟨tk, tr, th, e0, _, _⟩ := remove_loop_spec r cr
            obtain ⟨r', e1, ir', hr'⟩ := remove_height r tk (inv_right hi)
            obtain ⟨t', e2, it', _, ht'⟩ := rebalance_spec tk l r' h (inv_left hi) ir'
              (by omega) (by omega)
            refine ⟨t', ?_, it', ?_⟩
            · rw [avlnode_remove, if_neg hlt, if_neg hgt, if_neg cl, if_neg cr, e0]
              simp only [Option.bind_eq_bind, Option.some_bind, e1]
              exact e2
            · simp only [get_height_node]; omega

theorem subtrees_inv : ∀ (t n : AvlNode), n ∈ subtrees t → AvlInv t → AvlInv n
  | .nil, _, hn, _ => by simp [subtrees] at hn
  | .node k l r h, n, hn, hi => by
    simp only [subtrees, List.mem_cons, List.mem_append] at hn
    rcases hn with rfl | hn | hn
    · exact hi
    · exact subtrees_inv l n hn (inv_left hi)
    · exact subtrees_inv r n hn (inv_right hi)

theorem subtrees_ordered : ∀ (t n : AvlNode), n ∈ subtrees t → Ordered t → Ordered n
  | .nil, _, hn, _ => by simp [subtrees] at hn
  | .node k l r h, n, hn, ho => by
    obtain ⟨ol, or_, _, _⟩ := (ordered_node_iff k l r h).1 ho
    simp only [subtrees, List.mem_cons, List.mem_append] at hn
    rcases hn with rfl | hn | hn
    · exact ho
    · exact subtrees_ordered l n hn ol
    · exact subtrees_ordered r n hn or_

theorem subtrees_keys : ∀ (t n : AvlNode), n ∈ subtrees t → ∀ x ∈ inorder n, x ∈ inorder t
  | .nil, _, hn => by simp [subtrees] at hn
  | .node k l r h, n, hn => by
    intro x hx
    simp only [subtrees, List.mem_cons, List.mem_append] at hn
    simp only [inorder, List.mem_append, List.mem_cons]
    rcases hn with rfl | hn | hn
    · simpa [inorder] using hx
    · exact Or.inl (subtrees_keys l n hn x hx)
    · exact Or.inr (Or.inr (subtrees_keys r n hn x hx))

/-- In an ordered tree, the first key of the right subtree of a node is the least key of the
whole tree above the key of that node. -/
theorem successor_in_tree : ∀ (t : AvlNode) (k s : Nat) (l r : AvlNode) (h : Int)
    (rest : List Nat), Ordered t → .node k l r h ∈ subtrees t → inorder r = s :: rest →
    ∀ x ∈ inorder t, k < x → s ≤ x
  | .nil, _, _, _, _, _, _, _, hn, _ => by simp [subtrees] at hn
  | .node k' l' r' h', k, s, l, r, h, rest, ho, hn, hs => by
    obtain ⟨ol, or_, hlk, hkr⟩ := (ordered_node_iff k' l' r' h').1 ho
    have hsr : s ∈ inorder r := by rw [hs]; exact List.mem_cons_self _ _
    have hkin : k ∈ inorder (.node k l r h) := by simp [inorder]
    have hsin : s ∈ inorder (.node k l r h) := by simp [inorder, hsr]
    intro x hx hkx
    simp only [subtrees, List.mem_cons, List.mem_append] at hn
    simp only [inorder, List.mem_append, List.mem_cons] at hx
    rcases hn with hn | hn | hn
    · cases hn
      rcases hx with hx | rfl | hx
      · have := hlk x hx; omega
      · omega
      · have hor : (inorder r').Pairwise (· < ·) := or_
        rw [hs] at hor hx
        rcases List.mem_cons.1 hx with rfl | hx
        · exact le_refl _
        · exact Nat.le_of_lt ((List.pairwise_cons.1 hor).1 x hx)
    · have hs' := hlk s (subtrees_keys l' _ hn s hsin)
      rcases hx with hx | rfl | hx
      · exact successor_in_tree l' k s l r h rest ol hn hs x hx hkx
      · omega
      · have := hkr x hx; omega
    · have hk' := hkr k (subtrees_keys r' _ hn k hkin)
      rcases hx with hx | rfl | hx
      · have := hlk x hx; omega
      · omega
      · exact successor_in_tree r' k s l r h rest or_ hn hs x hx hkx

/-! ### Single calls on the registry -/

/-- The call `alloc(size)` on a registry whose tree satisfies the invariant and is ordered. -/
theorem alloc_spec (malloc : Registry → Nat → Nat) (w : Registry) (t : AvlTree) (size : Nat)
    (hgc : w.gc = some t) (hi : AvlInv t.root) (ho : Ordered t.root) :
    ∃ r, alloc malloc w size =
        some ({ malloc_effect (malloc w size) size w with gc := some ⟨r⟩ },
          malloc w size) ∧
      AvlInv r ∧ Ordered r ∧
      inorder r = (if malloc w size ∈ inorder t.root then inorder t.root
        else (inorder t.root).orderedInsert (· ≤ ·) (malloc w size)) := by
  obtain ⟨r, e, ir, or_, er, _⟩ := insert_spec t.root (malloc w size) hi ho
  exact ⟨r, by simp [alloc, hgc, avl_insert, e], ir, or_, er⟩

/-- The call `drop(ptr)` on a registry whose tree satisfies the invariant and is ordered. -/
theorem drop_spec (w : Registry) (t : AvlTree) (ptr : Nat)
    (hgc : w.gc = some t) (hi : AvlInv t.root) (ho : Ordered t.root) :
    ∃ r, drop w ptr = some (free ptr { w with gc := some ⟨r⟩ }) ∧
      AvlInv r ∧ Ordered r ∧ inorder r = (inorder t.root).erase ptr := by
  obtain ⟨r, e, ir, or_, er, _⟩ := remove_spec t.root ptr hi ho
  exact ⟨r, by simp [drop, hgc, avl_remove, e], ir, or_, er⟩

theorem tracked_of_gc {w : Registry} {t : AvlTree} (hgc : w.gc = some t) :
    tracked w = inorder t.root := by
  simp [tracked, hgc]

/-- When `memcpy` has a result, it is the state with the bytes copied. -/
theorem memcpy_eq_some {dst src n : Nat} {w w' : Registry}
    (h : memcpy dst src n w = some w') :
    w' = { w with mem := fun a =>
      if dst ≤ a ∧ a < dst + n then w.mem (src + (a - dst)) else w.mem a } := by
  unfold memcpy at h
  split at h
  · exact (Option.some.inj h).symm
  · cases h

theorem memcpy_of_valid (dst src n : Nat) (w : Registry)
    (h : n = 0 ∨ (inBlock w dst n = true ∧ inBlock w src n = true)) :
    memcpy dst src n w = some { w with mem := fun a =>
      if dst ≤ a ∧ a < dst + n then w.mem (src + (a - dst)) else w.mem a } := by
  unfold memcpy
  rw [if_pos h]

theorem memcpy_null_dst (src n : Nat) (w : Registry) (hn : 0 < n) :
    memcpy 0 src n w = none := by
  unfold memcpy
  rw [if_neg]
  rintro (h | ⟨h, _⟩)
  · omega
  · simp only [inBlock, List.any_eq_true, decide_eq_true_eq] at h
    obtain ⟨b, _, h1, h2, _⟩ := h
    omega

theorem load_memcpy {dst src n : Nat} {w w' : Registry} (m : Nat)
    (h : memcpy dst src n w = some w') (hm : m ≤ n) :
    load dst m w' = load src m w := by
  rw [memcpy_eq_some h]
  unfold load
  refine List.map_congr_left ?_
  intro i hi
  have := List.mem_range.1 hi
  show (if dst ≤ dst + i ∧ dst + i < dst + n then w.mem (src + (dst + i - dst))
    else w.mem (dst + i)) = w.mem (src + i)
  rw [if_pos ⟨by omega, by omega⟩, Nat.add_sub_cancel_left]

theorem load_memcpy_disjoint {dst src n : Nat} {w w' : Registry} (addr m : Nat)
    (h : memcpy dst src n w = some w') (hd : dst + n ≤ addr ∨ addr + m ≤ dst) :
    load addr m w' = load addr m w := by
  rw [memcpy_eq_some h]
  unfold load
  refine List.map_congr_left ?_
  intro i hi
  have := List.mem_range.1 hi
  show (if dst ≤ addr + i ∧ addr + i < dst + n then w.mem (src + (addr + i - dst))
    else w.mem (addr + i)) = w.mem (addr + i)
  rw [if_neg (by omega)]

/-- A block that is live stays live through `malloc`, and the block `malloc` returns is live
when the call did not fail. -/
theorem inBlock_malloc_effect (ptr size : Nat) (w : Registry) :
    (∀ addr n, inBlock w addr n = true → inBlock (malloc_effect ptr size w) addr n = true) ∧
      (ptr ≠ 0 → inBlock (malloc_effect ptr size w) ptr size = true) := by
  constructor
  · intro addr n h
    simp only [inBlock, List.any_eq_true, decide_eq_true_eq] at h ⊢
    obtain ⟨b, hb, h⟩ := h
    refine ⟨b, ?_, h⟩
    show b ∈ (if ptr = 0 then w.blocks else w.blocks ++ [(ptr, size)])
    split_ifs
    · exact hb
    · exact List.mem_append_left _ hb
  · intro hp
    simp only [inBlock, List.any_eq_true, decide_eq_true_eq]
    refine ⟨(ptr, size), ?_, hp, le_refl _, le_refl _⟩
    show (ptr, size) ∈ (if ptr = 0 then w.blocks else w.blocks ++ [(ptr, size)])
    rw [if_neg hp]
    exact List.mem_append_right _ (List.mem_singleton.2 rfl)

/-- The call `copy(ptr, size)` with a non-null source, on a registry whose tree satisfies the
invariant and is ordered: one `alloc`, then the `memcpy` into the new block. -/
theorem copy_nonnull_spec (malloc : Registry → Nat → Nat) (w : Registry) (t : AvlTree)
    (ptr size : Nat) (hgc : w.gc = some t) (hi : AvlInv t.root) (ho : Ordered t.root)
    (hp : ptr ≠ 0) :
    ∃ r, AvlInv r ∧ Ordered r ∧
      inorder r = (if malloc w size ∈ inorder t.root then inorder t.root
        else (inorder t.root).orderedInsert (· ≤ ·) (malloc w size)) ∧
      alloc malloc w size =
        some ({ malloc_effect (malloc w size) size w with gc := some ⟨r⟩ }, malloc w size) ∧
      copy malloc w ptr size =
        (memcpy (malloc w size) ptr size
          { malloc_effect (malloc w size) size w with gc := some ⟨r⟩ }).map
          (fun w' => (w', malloc w size)) := by
  obtain ⟨r, e, ir, or_, er⟩ := alloc_spec malloc w t size hgc hi ho
  refine ⟨r, ir, or_, er, e, ?_⟩
  simp only [copy, hp, if_false, Option.bind_eq_bind, Option.some_bind, e]
  cases memcpy (malloc w size) ptr size
    { malloc_effect (malloc w size) size w with gc := some ⟨r⟩ } <;> rfl

/-- The state `copyTestState` is the one `tests/copy.c` reaches with the allocator
`spacedAlloc`. -/
theorem copyTestState_eq :
    (alloc spacedAlloc (startup boot) 4).map (fun p => store p.2 (int_bytes 42) p.1) =
      some copyTestState := rfl

/-- The state `resizeTestState` is the one `tests/resize.c` reaches with the allocator
`spacedAlloc`. -/
theorem resizeTestState_eq :
    (alloc spacedAlloc (startup boot) 32).map
        (fun p => (List.range 8).foldl (fun w i => store (p.2 + 4 * i) (int_bytes i) w) p.1) =
      some resizeTestState := rfl

/-! ### Reads of `avlnode_rebalance` -/

/-- With correct stored heights in both subtrees, `avlnode_rebalance` finds every child it
reads through: whatever the balance, the call returns a node. -/
theorem rebalance_isSome_of_heights (k : Nat) (l r : AvlNode) (h0 : Int)
    (hl : HeightsOk l) (hr : HeightsOk r) :
    (avlnode_rebalance (.node k l r h0)).isSome = true := by
  have hln := height_nonneg hl
  have hrn := height_nonneg hr
  by_cases c1 : avlnode_get_height l - avlnode_get_height r > 1
  · cases l with
    | nil => simp only [get_height_nil] at c1; omega
    | node lk ll lr lh =>
      obtain ⟨hll, hlr, hlh⟩ := hl
      have hlln := height_nonneg hll
      simp only [get_height_node] at c1
      by_cases c2 : avlnode_get_height ll ≥ avlnode_get_height lr
      · simp only [avlnode_rebalance, update_height_node, Option.bind_eq_bind,
          Option.some_bind, avlnode_get_balance, get_height_node, avlnode_rotate_right]
        rw [if_pos c1, if_pos c2]
        rfl
      · cases lr with
        | nil => simp only [get_height_nil] at c2; omega
        | node mk ml mr mh =>
          simp only [get_height_node] at c2
          simp only [avlnode_rebalance, update_height_node, Option.bind_eq_bind,
            Option.some_bind, avlnode_get_balance, get_height_node, avlnode_rotate_right,
            avlnode_rotate_left]
          rw [if_pos c1, if_neg c2]
          rfl
  · by_cases c3 : avlnode_get_height l - avlnode_get_height r < -1
    · cases r with
      | nil => simp only [get_height_nil] at c3; omega
      | node rk rl rr rh =>
        obtain ⟨hrl, hrr, hrh⟩ := hr
        have hrrn := height_nonneg hrr
        simp only [get_height_node] at c1 c3
        by_cases c2 : avlnode_get_height rr ≥ avlnode_get_height rl
        · simp only [avlnode_rebalance, update_height_node, Option.bind_eq_bind,
            Option.some_bind, avlnode_get_balance, get_height_node, avlnode_rotate_left]
          rw [if_neg c1, if_pos c3, if_pos c2]
          rfl
        · cases rl with
          | nil => simp only [get_height_nil] at c2; omega
          | node mk ml mr mh =>
            simp only [get_height_node] at c2
            simp only [avlnode_rebalance, update_height_node, Option.bind_eq_bind,
              Option.some_bind, avlnode_get_balance, get_height_node, avlnode_rotate_right,
              avlnode_rotate_left]
            rw [if_neg c1, if_pos c3, if_neg c2]
            rfl
    · simp only [avlnode_rebalance, update_height_node, Option.bind_eq_bind,
        Option.some_bind, avlnode_get_balance, get_height_node]
      rw [if_neg c1, if_neg c3]
      rfl

/-- A node whose subtrees satisfy the invariant and differ in height by at most two: the
shape of every argument of `avlnode_rebalance` during an insertion or a removal. -/
theorem remove_finish_rebalances_ok (k : Nat) (l r : AvlNode) (h : Int)
    (hl : AvlInv l) (hr : AvlInv r)
    (h1 : -2 ≤ avlnode_get_height l - avlnode_get_height r)
    (h2 : avlnode_get_height l - avlnode_get_height r ≤ 2) :
    ∀ n ∈ avlnode_remove_finish_rebalances (.node k l r h),
      ∃ k' l' r' h', n = .node k' l' r' h' ∧ AvlInv l' ∧ AvlInv r' ∧
        -2 ≤ avlnode_get_height l' - avlnode_get_height r' ∧
        avlnode_get_height l' - avlnode_get_height r' ≤ 2 := by
  intro n hn
  simp only [avlnode_remove_finish_rebalances, List.mem_singleton] at hn
  exact ⟨k, l, r, h, hn, hl, hr, h1, h2⟩

theorem remove_finish_rebalances_of_inv : ∀ (t : AvlNode), AvlInv t →
    ∀ n ∈ avlnode_remove_finish_rebalances t,
      ∃ k' l' r' h', n = .node k' l' r' h' ∧ AvlInv l' ∧ AvlInv r' ∧
        -2 ≤ avlnode_get_height l' - avlnode_get_height r' ∧
        avlnode_get_height l' - avlnode_get_height r' ≤ 2
  | .nil, _ => by intro n hn; simp [avlnode_remove_finish_rebalances] at hn
  | .node k l r h, hi => by
    have b1 := hi.2.2.2.1
    have b2 := hi.2.2.2.2
    exact remove_finish_rebalances_ok k l r h (inv_left hi) (inv_right hi) (by omega)
      (by omega)

/-- Every call of `avlnode_rebalance` during `avlnode_insert` on a tree that satisfies the
invariant is on a node whose subtrees satisfy the invariant and differ in height by at most
two. -/
theorem insert_rebalances_ok : ∀ (t : AvlNode) (key : Nat), AvlInv t →
    ∀ n ∈ avlnode_insert_rebalances t key,
      ∃ k' l' r' h', n = .node k' l' r' h' ∧ AvlInv l' ∧ AvlInv r' ∧
        -2 ≤ avlnode_get_height l' - avlnode_get_height r' ∧
        avlnode_get_height l' - avlnode_get_height r' ≤ 2
  | .nil, key, _ => by
    intro n hn
    simp only [avlnode_insert_rebalances, List.mem_singleton] at hn
    exact ⟨key, .nil, .nil, 1, hn, ⟨trivial, trivial⟩, ⟨trivial, trivial⟩, by simp, by simp⟩
  | .node k l r h, key, hi => by
    have b1 := hi.2.2.2.1
    have b2 := hi.2.2.2.2
    intro n hn
    by_cases hlt : key < k
    · obtain ⟨l', e1, il', hl'⟩ := insert_height l key (inv_left hi)
      rw [avlnode_insert_rebalances, if_pos hlt, e1] at hn
      rcases List.mem_append.1 hn with hn | hn
      · exact insert_rebalances_ok l key (inv_left hi) n hn
      · exact ⟨k, l', r, h, List.mem_singleton.1 hn, il', inv_right hi, by omega, by omega⟩
    · by_cases hgt : key > k
      · obtain ⟨r', e1, ir', hr'⟩ := insert_height r key (inv_right hi)
        rw [avlnode_insert_rebalances, if_neg hlt, if_pos hgt, e1] at hn
        rcases List.mem_append.1 hn with hn | hn
        · exact insert_rebalances_ok r key (inv_right hi) n hn
        · exact ⟨k, l, r', h, List.mem_singleton.1 hn, inv_left hi, ir', by omega, by omega⟩
      · rw [avlnode_insert_rebalances, if_neg hlt, if_neg hgt] at hn
        exact ⟨k, l, r, h, List.mem_singleton.1 hn, inv_left hi, inv_right hi, by omega,
          by omega⟩

/-- Every call of `avlnode_rebalance` during `avlnode_remove` on a tree that satisfies the
invariant is on a node whose subtrees satisfy the invariant and differ in height by at most
two. -/
theorem remove_rebalances_ok : ∀ (t : AvlNode) (key : Nat), AvlInv t →
    ∀ n ∈ avlnode_remove_rebalances t key,
      ∃ k' l' r' h', n = .node k' l' r' h' ∧ AvlInv l' ∧ AvlInv r' ∧
        -2 ≤ avlnode_get_height l' - avlnode_get_height r' ∧
        avlnode_get_height l' - avlnode_get_height r' ≤ 2
  | .nil, _, _ => by intro n hn; simp [avlnode_remove_rebalances] at hn
  | .node k l r h, key, hi => by
    have b1 := hi.2.2.2.1
    have b2 := hi.2.2.2.2
    intro n hn
    by_cases hlt : key < k
    · obtain ⟨l', e1, il', hl'⟩ := remove_height l key (inv_left hi)
      rw [avlnode_remove_rebalances, if_pos hlt, e1] at hn
      rcases List.mem_append.1 hn with hn | hn
      · exact remove_rebalances_ok l key (inv_left hi) n hn
      · exact remove_finish_rebalances_ok k l' r h il' (inv_right hi) (by omega) (by omega)
          n hn
    · by_cases hgt : key > k
      · obtain ⟨r', e1, ir', hr'⟩ := remove_height r key (inv_right hi)
        rw [avlnode_remove_rebalances, if_neg hlt, if_pos hgt, e1] at hn
        rcases List.mem_append.1 hn with hn | hn
        · exact remove_rebalances_ok r key (inv_right hi) n hn
        · exact remove_finish_rebalances_ok k l r' h (inv_left hi) ir' (by omega) (by omega)
            n hn
      · by_cases cl : l = .nil
        · rw [avlnode_remove_rebalances, if_neg hlt, if_neg hgt, if_pos cl] at hn
          exact remove_finish_rebalances_of_inv r (inv_right hi) n hn
        · by_cases cr : r = .nil
          · rw [avlnode_remove_rebalances, if_neg hlt, if_neg hgt, if_neg cl, if_pos cr] at hn
            exact remove_finish_rebalances_of_inv l (inv_left hi) n hn
          · obtain ⟨tk, tr, th, e0, _, _⟩ := remove_loop_spec r cr
            obtain ⟨r', e1, ir', hr'⟩ := remove_height r tk (inv_right hi)
            rw [avlnode_remove_rebalances, if_neg hlt, if_neg hgt, if_neg cl, if_neg cr,
              e0] at hn
            simp only [e1] at hn
            rcases List.mem_append.1 hn with hn | hn
            · exact remove_rebalances_ok r tk (inv_right hi) n hn
            · exact remove_finish_rebalances_ok tk l r' h (inv_left hi) ir' (by omega)
                (by omega) n hn

theorem subtrees_height_pos : ∀ (t n : AvlNode), n ∈ subtrees t → HeightsOk t →
    1 ≤ avlnode_get_height n
  | .nil, _, hn, _ => by simp [subtrees] at hn
  | .node k l r h, n, hn, ht => by
    simp only [subtrees, List.mem_cons, List.mem_append] at hn
    rcases hn with rfl | hn | hn
    · exact height_pos ht
    · exact subtrees_height_pos l n hn ht.1
    · exact subtrees_height_pos r n hn ht.2.1

/-! ## The claims -/

/-- C1 (balance invariant). Any finite sequence of `avl_insert` / `avl_remove` calls on the
tree returned by `avl_new` runs to completion, and after each call (that is, after every
initial segment `ops.take n` of the sequence) every node's stored height is
`1 + max(height(left), height(right))` and every node's balance factor lies in `[-1, 1]`. -/
theorem C1_balance_invariant (ops : List AvlOp) (n : Nat) :
    ∃ t, avl_run (ops.take n) avl_new = some t ∧ HeightsOk t.root ∧ BalanceOk t.root := by
  obtain ⟨t, e, i, _, _⟩ := run_spec (ops.take n) avl_new inv_new ordered_new
  exact ⟨t, e, i.1, i.2⟩

/-- C2 (ordering invariant). After any sequence of `avl_insert` / `avl_remove` calls on the
empty tree, the keys `avl_iter` hands to a recording visitor are strictly increasing (hence
without duplicates), are exactly the keys the set holds according to the contract
(`keysAfter`), and there is one call per node; any other visitor is called on this same
sequence of keys, from left to right. -/
theorem C2_iter_strictly_increasing (ops : List AvlOp) :
    ∃ t, avl_run ops avl_new = some t ∧
      (avl_iter t record []).Pairwise (· < ·) ∧
      (avl_iter t record []).Nodup ∧
      (∀ k, k ∈ avl_iter t record [] ↔ k ∈ keysAfter ops ∅) ∧
      (avl_iter t record []).length = size t.root ∧
      ∀ (σ : Type) (func : Nat → σ → σ) (s : σ),
        avl_iter t func s = (avl_iter t record []).foldl (fun s k => func k s) s := by
  obtain ⟨t, e, _, o, k⟩ := run_spec ops avl_new inv_new ordered_new
  have hv : avl_iter t record [] = inorder t.root := by
    rw [avl_iter, iter_record, List.nil_append]
  refine ⟨t, e, ?_, ?_, ?_, ?_, ?_⟩
  · rw [hv]; exact o
  · rw [hv]; exact o.imp (fun h => Nat.ne_of_lt h)
  · intro x
    rw [hv, ← List.mem_toFinset, k]
    rfl
  · rw [hv, size_eq_length]
  · intro σ func s
    rw [hv, avl_iter, iter_eq_foldl]

/-- C3 (insert adds exactly the key). For a set reachable from the empty tree and a key `k`
not in it, `avl_insert` succeeds; the new in-order sequence is the old one with `k` put at
its sorted position, `k` is a member, the old keys stay, nothing else appears, and the
number of keys grows by one. -/
theorem C3_insert_adds_key (t : AvlTree) (k : Nat) (hr : Reachable t)
    (hk : k ∉ inorder t.root) :
    ∃ t', avl_insert t k = some t' ∧
      inorder t'.root = (inorder t.root).orderedInsert (· ≤ ·) k ∧
      (∃ l₁ l₂, inorder t.root = l₁ ++ l₂ ∧ inorder t'.root = l₁ ++ k :: l₂ ∧
        (∀ x ∈ l₁, x < k) ∧ (∀ x ∈ l₂, k < x)) ∧
      k ∈ inorder t'.root ∧
      (∀ x ∈ inorder t.root, x ∈ inorder t'.root) ∧
      (∀ x ∈ inorder t'.root, x = k ∨ x ∈ inorder t.root) ∧
      size t'.root = size t.root + 1 := by
  obtain ⟨hi, ho⟩ := reachable_inv hr
  obtain ⟨r, e, _, or_, er, _⟩ := insert_spec t.root k hi ho
  rw [if_neg hk] at er
  have hmem : ∀ x, x ∈ inorder r ↔ x = k ∨ x ∈ inorder t.root := by
    intro x; rw [er, List.mem_orderedInsert]
  refine ⟨⟨r⟩, by simp [avl_insert, e], er, ?_, (hmem k).2 (Or.inl rfl),
    fun x hx => (hmem x).2 (Or.inr hx), fun x hx => (hmem x).1 hx, ?_⟩
  · refine ⟨(inorder t.root).takeWhile (fun b => decide ¬(k ≤ b)),
      (inorder t.root).dropWhile (fun b => decide ¬(k ≤ b)),
      (List.takeWhile_append_dropWhile _ _).symm, ?_, ?_, ?_⟩
    · show inorder r = _
      rw [er, List.orderedInsert_eq_take_drop]
    · intro x hx
      have := List.mem_takeWhile_imp hx
      simpa using this
    · intro x hx
      have hor : Ordered r := or_
      unfold Ordered at hor
      rw [er, List.orderedInsert_eq_take_drop, List.pairwise_append] at hor
      exact (List.pairwise_cons.1 hor.2.1).1 x hx
  · show size r = _
    rw [size_eq_length, size_eq_length, er, List.orderedInsert_length]

/-- C4 (remove deletes exactly the key). For a set reachable from the empty tree and a key
`k` in it, whatever the shape of the node holding `k`, `avl_remove` succeeds; the new
in-order sequence is the old one with `k` deleted, `k` is no longer a member, every other key
keeps its membership, and the number of keys shrinks by one. -/
theorem C4_remove_deletes_key (t : AvlTree) (k : Nat) (hr : Reachable t)
    (hk : k ∈ inorder t.root) :
    ∃ t', avl_remove t k = some t' ∧
      inorder t'.root = (inorder t.root).erase k ∧
      (∃ l₁ l₂, inorder t.root = l₁ ++ k :: l₂ ∧ inorder t'.root = l₁ ++ l₂) ∧
      k ∉ inorder t'.root ∧
      (∀ x, x ≠ k → (x ∈ inorder t'.root ↔ x ∈ inorder t.root)) ∧
      size t'.root + 1 = size t.root := by
  obtain ⟨hi, ho⟩ := reachable_inv hr
  obtain ⟨r, e, _, _, er, _⟩ := remove_spec t.root k hi ho
  have hn : (inorder t.root).Nodup := ho.imp (fun h => Nat.ne_of_lt h)
  refine ⟨⟨r⟩, by simp [avl_remove, e], er, ?_, ?_, ?_, ?_⟩
  · obtain ⟨l₁, l₂, hk₁, e₁, e₂⟩ := List.exists_erase_eq hk
    exact ⟨l₁, l₂, e₁, by show inorder r = _; rw [er, e₂]⟩
  · show k ∉ inorder r
    rw [er, hn.mem_erase_iff]
    exact fun h => h.1 rfl
  · intro x hx
    show x ∈ inorder r ↔ _
    rw [er, hn.mem_erase_iff]
    exact ⟨fun h => h.2, fun h => ⟨hx, h⟩⟩
  · show size r + 1 = _
    rw [size_eq_length, size_eq_length, er, List.length_erase_of_mem hk]
    have := List.length_pos_of_mem hk
    omega

/-- C5 (no duplicates). For a set reachable from the empty tree and a key `k` already in it,
`avl_insert` calls `malloc` for no node, performs no rotation, and returns the tree identical
node for node (shape, keys and stored heights), so the size and the in-order sequence are
unchanged. -/
theorem C5_insert_present_is_identity (t : AvlTree) (k : Nat) (hr : Reachable t)
    (hk : k ∈ inorder t.root) :
    avlnode_insert_mallocs t.root k = 0 ∧
      avlnode_insert_rotations t.root k = 0 ∧
      avl_insert t k = some t ∧
      ∀ t', avl_insert t k = some t' →
        size t'.root = size t.root ∧ inorder t'.root = inorder t.root := by
  obtain ⟨hi, ho⟩ := reachable_inv hr
  obtain ⟨e1, e2, e3⟩ := insert_present t.root k hi ho hk
  have e : avl_insert t k = some t := by simp [avl_insert, e1]
  refine ⟨e2, e3, e, ?_⟩
  intro t' ht'
  rw [e] at ht'
  cases ht'
  exact ⟨rfl, rfl⟩

/-- C6 (removing an absent key is a no-op). For a set reachable from the empty tree and a key
`k` not in it, `avl_remove` returns the tree identical node for node. Consequently `drop` on
an address that is not tracked leaves the registry's tree unchanged, and so does a second
`drop` of an address right after a first one. -/
theorem C6_remove_absent_is_identity (t : AvlTree) (k : Nat) (hr : Reachable t) :
    (k ∉ inorder t.root → avl_remove t k = some t) ∧
      (∀ w : Registry, w.gc = some t → k ∉ tracked w →
        ∃ w', drop w k = some w' ∧ w'.gc = w.gc) ∧
      (∀ w w₁ : Registry, w.gc = some t → drop w k = some w₁ →
        ∃ w₂, drop w₁ k = some w₂ ∧ w₂.gc = w₁.gc) := by
  obtain ⟨hi, ho⟩ := reachable_inv hr
  have h1 : ∀ t : AvlTree, AvlInv t.root → k ∉ inorder t.root → avl_remove t k = some t := by
    intro t hi hk
    simp [avl_remove, remove_absent t.root k hi hk]
  have h2 : ∀ (w : Registry) (t : AvlTree), w.gc = some t → AvlInv t.root →
      k ∉ inorder t.root → ∃ w', drop w k = some w' ∧ w'.gc = w.gc := by
    intro w t hw hi hk
    refine ⟨free k { w with gc := some t }, ?_, ?_⟩
    · simp [drop, hw, h1 t hi hk]
    · simp [free, hw]
  refine ⟨h1 t hi, ?_, ?_⟩
  · intro w hw hk
    exact h2 w t hw hi (by simpa [tracked, hw] using hk)
  · intro w w₁ hw hd
    obtain ⟨r, e, ir, _, er, _⟩ := remove_spec t.root k hi ho
    have hn : (inorder t.root).Nodup := ho.imp (fun h => Nat.ne_of_lt h)
    have hw₁ : w₁.gc = some ⟨r⟩ := by
      simp only [drop, hw, avl_remove, e, Option.map_some', Option.some.injEq] at hd
      rw [← hd]; rfl
    refine h2 w₁ ⟨r⟩ hw₁ ir ?_
    show k ∉ inorder r
    rw [er, hn.mem_erase_iff]
    exact fun h => h.1 rfl

/-- C7, as stated, fails: the set holding only the key `5` is reachable from the empty tree,
and `avl_insert(set, 5); avl_remove(set, 5)` leaves it empty, so `5` is no longer a member
and the in-order sequence has changed. -/
theorem C7_counterexample :
    avl_run [.insert 5] avl_new = some ⟨.node 5 .nil .nil 1⟩ ∧
      (avl_insert ⟨.node 5 .nil .nil 1⟩ 5).bind (fun t => avl_remove t 5) = some ⟨.nil⟩ ∧
      5 ∈ inorder (AvlNode.node 5 .nil .nil 1) ∧
      5 ∉ inorder AvlNode.nil ∧
      inorder AvlNode.nil ≠ inorder (AvlNode.node 5 .nil .nil 1) := by
  decide

/-- C7 (membership round-trip), amended: for a set reachable from the empty tree and a key
`k` that is not in it, `avl_insert(set, k)` followed by `avl_remove(set, k)` succeeds and
leaves the key membership and the in-order key sequence as they were before the two calls. -/
theorem C7_insert_remove_roundtrip (t : AvlTree) (k : Nat) (hr : Reachable t)
    (hk : k ∉ inorder t.root) :
    ∃ t₁ t₂, avl_insert t k = some t₁ ∧ avl_remove t₁ k = some t₂ ∧
      inorder t₂.root = inorder t.root ∧
      ∀ x, x ∈ inorder t₂.root ↔ x ∈ inorder t.root := by
  obtain ⟨hi, ho⟩ := reachable_inv hr
  obtain ⟨r₁, e₁, i₁, o₁, er₁, _⟩ := insert_spec t.root k hi ho
  obtain ⟨r₂, e₂, _, _, er₂, _⟩ := remove_spec r₁ k i₁ o₁
  rw [if_neg hk] at er₁
  have e : inorder r₂ = inorder t.root := by
    rw [er₂, er₁, List.erase_orderedInsert_of_not_mem hk]
  exact ⟨⟨r₁⟩, ⟨r₂⟩, by simp [avl_insert, e₁], by simp [avl_remove, e₂], e,
    fun x => by show x ∈ inorder r₂ ↔ _; rw [e]⟩

/-- The hypotheses of C3 hold for the sample set `{1, 2, 3}` and the key `4`; the call
yields the sequence `1, 2, 3, 4`. -/
theorem C3_witness :
    Reachable sampleTree ∧ 4 ∉ inorder sampleTree.root ∧
      ∃ t', avl_insert sampleTree 4 = some t' ∧ inorder t'.root = [1, 2, 3, 4] :=
  ⟨⟨[.insert 2, .insert 1, .insert 3], by decide⟩, by decide,
    (C3_insert_adds_key sampleTree 4 ⟨[.insert 2, .insert 1, .insert 3], by decide⟩
      (by decide)).imp fun _ h => ⟨h.1, h.2.1.trans (by decide)⟩⟩

/-- The hypotheses of C4 hold for the sample set `{1, 2, 3}` and the key `2`, whose node has
two children; the call yields the sequence `1, 3`. -/
theorem C4_witness :
    Reachable sampleTree ∧ 2 ∈ inorder sampleTree.root ∧
      ∃ t', avl_remove sampleTree 2 = some t' ∧ inorder t'.root = [1, 3] :=
  ⟨⟨[.insert 2, .insert 1, .insert 3], by decide⟩, by decide,
    (C4_remove_deletes_key sampleTree 2 ⟨[.insert 2, .insert 1, .insert 3], by decide⟩
      (by decide)).imp fun _ h => ⟨h.1, h.2.1.trans (by decide)⟩⟩

/-- The hypotheses of C5 hold for the sample set `{1, 2, 3}` and the key `3`. -/
theorem C5_witness :
    Reachable sampleTree ∧ 3 ∈ inorder sampleTree.root ∧
      avlnode_insert_mallocs sampleTree.root 3 = 0 ∧
      avlnode_insert_rotations sampleTree.root 3 = 0 ∧
      avl_insert sampleTree 3 = some sampleTree :=
  ⟨⟨[.insert 2, .insert 1, .insert 3], by decide⟩, by decide,
    (C5_insert_present_is_identity sampleTree 3
      ⟨[.insert 2, .insert 1, .insert 3], by decide⟩ (by decide)).1,
    (C5_insert_present_is_identity sampleTree 3
      ⟨[.insert 2, .insert 1, .insert 3], by decide⟩ (by decide)).2.1,
    (C5_insert_present_is_identity sampleTree 3
      ⟨[.insert 2, .insert 1, .insert 3], by decide⟩ (by decide)).2.2.1⟩

/-- The hypotheses of C6 hold for the sample set `{1, 2, 3}` and the key `7`. -/
theorem C6_witness :
    Reachable sampleTree ∧ 7 ∉ inorder sampleTree.root ∧
      avl_remove sampleTree 7 = some sampleTree :=
  ⟨⟨[.insert 2, .insert 1, .insert 3], by decide⟩, by decide,
    (C6_remove_absent_is_identity sampleTree 7
      ⟨[.insert 2, .insert 1, .insert 3], by decide⟩).1 (by decide)⟩

/-- The hypotheses of the amended C7 hold for the sample set `{1, 2, 3}` and the key `7`. -/
theorem C7_witness :
    Reachable sampleTree ∧ 7 ∉ inorder sampleTree.root ∧
      ∃ t₁ t₂, avl_insert sampleTree 7 = some t₁ ∧ avl_remove t₁ 7 = some t₂ ∧
        inorder t₂.root = [1, 2, 3] :=
  ⟨⟨[.insert 2, .insert 1, .insert 3], by decide⟩, by decide,
    (C7_insert_remove_roundtrip sampleTree 7 ⟨[.insert 2, .insert 1, .insert 3], by decide⟩
      (by decide)).imp fun _ h => h.imp fun _ h => ⟨h.1, h.2.1, h.2.2.1.trans (by decide)⟩⟩

/-- C8 (height bound). Keys are addresses of the 64-bit machine the source is written for
(`AvlNode` is documented as 32 bytes, `AvlTree` as 8), so every call is made with a key below
`2 ^ 64`. After any such sequence of `avl_insert` / `avl_remove` calls on the empty tree, the
root's stored height (`0` for the empty tree) is at most `⌈1.44 * log₂ (n + 2)⌉`, where `n`
is the number of keys held. -/
theorem C8_height_bound (ops : List AvlOp) (hkeys : ∀ op ∈ ops, op.key < 2 ^ 64) :
    ∃ t, avl_run ops avl_new = some t ∧
      avlnode_get_height t.root ≤
        ⌈(1.44 : ℝ) * Real.logb 2 (((inorder t.root).length : ℝ) + 2)⌉ := by
  obtain ⟨t, e, i, o, k⟩ := run_spec ops avl_new inv_new ordered_new
  refine ⟨t, e, ?_⟩
  have hlen : size t.root ≤ 2 ^ 64 := by
    rw [size_eq_length]
    refine length_le_of_pairwise_lt o ?_
    intro x hx
    have hx' : x ∈ keysAfter ops ∅ := by
      have := List.mem_toFinset.2 hx
      rw [k] at this
      exact this
    rcases keysAfter_subset ops ∅ x hx' with h | ⟨op, hop, rfl⟩
    · simp at h
    · exact hkeys op hop
  have h := height_le_log t.root i hlen
  rw [size_eq_length] at h
  exact Int.cast_le.1 (le_trans h (Int.le_ceil _))

/-- The hypothesis of C8 holds for the calls inserting `1, …, 7` in increasing order; the
resulting tree has height `3` and holds `7` keys. -/
theorem C8_witness :
    (∀ op ∈ [AvlOp.insert 1, .insert 2, .insert 3, .insert 4, .insert 5, .insert 6, .insert 7],
        op.key < 2 ^ 64) ∧
      ∃ t, avl_run [.insert 1, .insert 2, .insert 3, .insert 4, .insert 5, .insert 6,
          .insert 7] avl_new = some t ∧
        avlnode_get_height t.root ≤
          ⌈(1.44 : ℝ) * Real.logb 2 (((inorder t.root).length : ℝ) + 2)⌉ :=
  ⟨by decide, C8_height_bound _ (by decide)⟩

/-- C9 (shutdown releases exactly the still-tracked blocks). Let `malloc` return a non-null
address it has never returned before, and let every `drop` of `ops` be called on an address
tracked at that time. Then the calls of `ops` after `startup` and the final `quit` run to
completion; `quit` appends to the log of `free` calls a list `released` that holds exactly the
addresses allocated and not dropped, each once; over the whole run no address is passed to
`free` twice; the calls before `quit` freed exactly the dropped addresses, so the number of
blocks released by `quit` is the number of `alloc` calls minus the number of `drop` calls,
which is `N` after `N` allocations and no release. -/
theorem C9_quit_releases_tracked (malloc : Registry → Nat → Nat)
    (hfresh : ∀ w size, malloc w size ≠ 0 ∧ malloc w size ∉ w.allocated)
    (ops : List RegOp) (hdrops : dropsTracked malloc ops (startup boot) = true) :
    ∃ w w' released, reg_run malloc ops (startup boot) = some w ∧ quit w = some w' ∧
      w'.freed = w.freed ++ released ∧
      (∀ a, a ∈ released ↔ a ∈ w.allocated ∧ a ∉ w.freed) ∧
      released.Nodup ∧
      w'.freed.Nodup ∧
      w.freed = droppedBy ops ∧
      w.allocated.length = allocCalls ops ∧
      released.length + (droppedBy ops).length = allocCalls ops ∧
      (droppedBy ops = [] → released.length = allocCalls ops) := by
  obtain ⟨w, e, ⟨t, hgc, hi, ho, na, nf, hfa, hm⟩, hf, ha⟩ :=
    reg_run_spec malloc hfresh ops (startup boot) regInv_startup hdrops
  have hf' : w.freed = droppedBy ops := by simpa [startup, boot] using hf
  have ha' : w.allocated.length = allocCalls ops := by simpa [startup, boot] using ha
  have hperm := postorder_perm_inorder t.root
  have hn : (inorder t.root).Nodup := ho.imp (fun h => Nat.ne_of_lt h)
  have hmem : ∀ a, a ∈ postorder t.root ↔ a ∈ w.allocated ∧ a ∉ w.freed :=
    fun a => (hperm.mem_iff).trans (hm a)
  have hnp : (postorder t.root).Nodup := hperm.nodup_iff.2 hn
  have hq : (avl_iter_destroy t free w).freed = w.freed ++ postorder t.root := by
    rw [avl_iter_destroy, iter_destroy_eq_foldl]
    exact (foldl_free _ w).1
  have hall : (w.freed ++ postorder t.root).Perm w.allocated := by
    refine (List.perm_ext_iff_of_nodup ?_ na).2 ?_
    · exact List.nodup_append.2 ⟨nf, hnp, fun a h1 h2 => ((hmem a).1 h2).2 h1⟩
    · intro a
      rw [List.mem_append, hmem a]
      constructor
      · rintro (h | h)
        · exact hfa a h
        · exact h.1
      · intro h
        by_cases hc : a ∈ w.freed
        · exact Or.inl hc
        · exact Or.inr ⟨h, hc⟩
  have hlen : (postorder t.root).length + (droppedBy ops).length = allocCalls ops := by
    have := hall.length_eq
    rw [List.length_append, hf', ha'] at this
    omega
  refine ⟨w, { avl_iter_destroy t free w with gc := none }, postorder t.root, e, ?_, hq,
    hmem, hnp, ?_, hf', ha', hlen, ?_⟩
  · simp [quit, hgc]
  · show (avl_iter_destroy t free w).freed.Nodup
    rw [hq]
    exact List.nodup_append.2 ⟨nf, hnp, fun a h1 h2 => ((hmem a).1 h2).2 h1⟩
  · intro h0
    rw [h0] at hlen
    simpa using hlen

/-- The hypotheses of C9 hold for the allocator `bumpAlloc` and the program
`alloc; alloc; drop(1); alloc`: the run frees `1` and `quit` then releases two blocks. -/
theorem C9_witness :
    (∀ w size, bumpAlloc w size ≠ 0 ∧ bumpAlloc w size ∉ w.allocated) ∧
      dropsTracked bumpAlloc [.alloc 4, .alloc 4, .drop 1, .alloc 8] (startup boot) = true ∧
      ∃ w w' released,
        reg_run bumpAlloc [.alloc 4, .alloc 4, .drop 1, .alloc 8] (startup boot) = some w ∧
          quit w = some w' ∧ w'.freed = w.freed ++ released ∧ released.length + 1 = 3 :=
  ⟨bumpAlloc_fresh, by decide,
    (C9_quit_releases_tracked bumpAlloc bumpAlloc_fresh
      [.alloc 4, .alloc 4, .drop 1, .alloc 8] (by decide)).imp fun _ h =>
        h.imp fun _ h => h.imp fun _ h => ⟨h.1, h.2.1, h.2.2.1, h.2.2.2.2.2.2.2.2.1⟩⟩

/-- C10 (drain order and coverage). For every tree, `avl_iter_destroy` with a recording
visitor visits nothing on the empty tree and, on a tree with root key `k`, the keys visited
in the left subtree, then those visited in the right subtree, then `k`, which comes last;
there is one call per node; the visited sequence is a permutation of the one `avl_iter`
yields on the same tree; any other visitor is called on this same sequence of keys. -/
theorem C10_drain_postorder :
    (∀ visited, avl_iter_destroy ⟨.nil⟩ record visited = visited) ∧
      (∀ (k : Nat) (l r : AvlNode) (h : Int),
        avl_iter_destroy ⟨.node k l r h⟩ record [] =
          avl_iter_destroy ⟨l⟩ record [] ++ avl_iter_destroy ⟨r⟩ record [] ++ [k]) ∧
      ∀ tree : AvlTree,
        (avl_iter_destroy tree record []).length = size tree.root ∧
          (avl_iter_destroy tree record []).Perm (avl_iter tree record []) ∧
          ∀ (σ : Type) (func : Nat → σ → σ) (s : σ),
            avl_iter_destroy tree func s =
              (avl_iter_destroy tree record []).foldl (fun s k => func k s) s := by
  have hv : ∀ t : AvlNode, avl_iter_destroy ⟨t⟩ record [] = postorder t := by
    intro t
    rw [avl_iter_destroy, iter_destroy_record, List.nil_append]
  refine ⟨fun _ => rfl, ?_, ?_⟩
  · intro k l r h
    rw [hv, hv, hv, postorder, List.append_assoc]
  · intro tree
    have hi : avl_iter tree record [] = inorder tree.root := by
      rw [avl_iter, iter_record, List.nil_append]
    refine ⟨?_, ?_, ?_⟩
    · rw [hv, size_eq_length]
      exact (postorder_perm_inorder _).length_eq
    · rw [hv, hi]
      exact postorder_perm_inorder _
    · intro σ func s
      rw [hv, avl_iter_destroy, iter_destroy_eq_foldl]

/-- C11, as stated, fails. Let `malloc` fail on every call. After `startup`, a first
`alloc(8)` returns `NULL` and leaves `NULL` tracked, so one address is tracked. A second
`alloc(8)` returns `NULL` again, which is already tracked, and the `drop` of the returned
address removes it: no address is tracked any more. -/
theorem C11_counterexample :
    (alloc failingAlloc (startup boot) 8).map (fun p => (p.2, tracked p.1)) =
        some (0, [0]) ∧
      ((alloc failingAlloc (startup boot) 8).bind fun p => alloc failingAlloc p.1 8).map
        (fun q => (q.2, tracked q.1)) = some (0, [0]) ∧
      (((alloc failingAlloc (startup boot) 8).bind fun p => alloc failingAlloc p.1 8).bind
        fun q => drop q.1 q.2).map tracked = some [] := by
  decide

/-- C11 (registry lifecycle), amended: for a registry whose tree is reachable from the empty
tree, if the address `alloc(n)` returns was not tracked before the call, then `alloc(n)`
followed immediately by `drop` of that address succeeds and leaves the in-order sequence of
tracked addresses, and so their number, as before the `alloc`. -/
theorem C11_alloc_drop_roundtrip (malloc : Registry → Nat → Nat) (w : Registry)
    (t : AvlTree) (n : Nat) (hgc : w.gc = some t) (hr : Reachable t)
    (hnew : malloc w n ∉ tracked w) :
    ∃ w₁ w₂, alloc malloc w n = some (w₁, malloc w n) ∧
      drop w₁ (malloc w n) = some w₂ ∧
      tracked w₂ = tracked w ∧ (tracked w₂).length = (tracked w).length := by
  obtain ⟨hi, ho⟩ := reachable_inv hr
  rw [tracked_of_gc hgc] at hnew
  obtain ⟨r₁, e₁, i₁, o₁, er₁⟩ := alloc_spec malloc w t n hgc hi ho
  rw [if_neg hnew] at er₁
  obtain ⟨r₂, e₂, _, _, er₂⟩ := drop_spec
    { malloc_effect (malloc w n) n w with gc := some ⟨r₁⟩ } ⟨r₁⟩ (malloc w n)
    rfl i₁ o₁
  have e : tracked (free (malloc w n)
      { malloc_effect (malloc w n) n w with gc := some ⟨r₂⟩ }) = tracked w := by
    rw [tracked_of_gc hgc]
    show inorder r₂ = _
    rw [er₂]
    show (inorder r₁).erase _ = _
    rw [er₁, List.erase_orderedInsert_of_not_mem hnew]
  exact ⟨_, _, e₁, e₂, e, by rw [e]⟩

/-- The hypotheses of the amended C11 hold for the state of `tests/copy.c` and the allocator
`spacedAlloc`. -/
theorem C11_witness :
    copyTestState.gc = some ⟨.node 5 .nil .nil 1⟩ ∧
      Reachable ⟨.node 5 .nil .nil 1⟩ ∧
      spacedAlloc copyTestState 4 ∉ tracked copyTestState ∧
      ∃ w₁ w₂, alloc spacedAlloc copyTestState 4 = some (w₁, spacedAlloc copyTestState 4) ∧
        drop w₁ (spacedAlloc copyTestState 4) = some w₂ ∧ tracked w₂ = [5] :=
  ⟨rfl, ⟨[.insert 5], by decide⟩, by decide,
    (C11_alloc_drop_roundtrip spacedAlloc copyTestState ⟨.node 5 .nil .nil 1⟩ 4 rfl
      ⟨[.insert 5], by decide⟩ (by decide)).imp fun _ h => h.imp fun _ h =>
        ⟨h.1, h.2.1, h.2.2.1.trans (by decide)⟩⟩

/-- C12, as stated, fails. With a `malloc` that fails, `alloc(4)` after `startup` does not
fail: it returns `NULL`, and the registry, empty before, now tracks `NULL` and has logged
one allocation. -/
theorem C12_counterexample :
    tracked (startup boot) = [] ∧
      (alloc failingAlloc (startup boot) 4).map
        (fun p => (p.2, tracked p.1, p.1.allocated)) = some (0, [0], [0]) := by
  decide

/-- C12 (allocation failure), amended: for a registry whose tree is reachable from the empty
tree, when the raw allocation fails (`malloc` returns `NULL`), `alloc(size)` raises no error:
it completes, returns `NULL` to its caller, and `NULL` is tracked afterwards, put in front
of the tracked addresses unless it was tracked already; memory and the log of `free` calls
are unchanged. -/
theorem C12_failed_malloc_returns_null (malloc : Registry → Nat → Nat) (w : Registry)
    (t : AvlTree) (size : Nat) (hgc : w.gc = some t) (hr : Reachable t)
    (hfail : malloc w size = 0) :
    ∃ w', alloc malloc w size = some (w', 0) ∧
      0 ∈ tracked w' ∧
      tracked w' = (if 0 ∈ tracked w then tracked w else 0 :: tracked w) ∧
      w'.allocated = w.allocated ++ [0] ∧ w'.freed = w.freed ∧ w'.mem = w.mem := by
  obtain ⟨hi, ho⟩ := reachable_inv hr
  obtain ⟨r, e, _, _, er⟩ := alloc_spec malloc w t size hgc hi ho
  rw [hfail] at e er
  have hz : ∀ L : List Nat, L.orderedInsert (· ≤ ·) 0 = 0 :: L := by
    intro L
    cases L <;> simp [List.orderedInsert]
  have et : tracked { malloc_effect 0 size w with gc := some ⟨r⟩ } =
      (if 0 ∈ tracked w then tracked w else 0 :: tracked w) := by
    rw [tracked_of_gc hgc]
    show inorder r = _
    rw [er, hz]
  refine ⟨_, e, ?_, et, rfl, rfl, rfl⟩
  rw [et]
  split_ifs with h
  · exact h
  · exact List.mem_cons_self _ _

/-- The hypotheses of the amended C12 hold for the state of `tests/copy.c` and the failing
allocator: `NULL` is returned and becomes tracked next to `5`. -/
theorem C12_witness :
    copyTestState.gc = some ⟨.node 5 .nil .nil 1⟩ ∧
      Reachable ⟨.node 5 .nil .nil 1⟩ ∧ failingAlloc copyTestState 4 = 0 ∧
      ∃ w', alloc failingAlloc copyTestState 4 = some (w', 0) ∧ tracked w' = [0, 5] :=
  ⟨rfl, ⟨[.insert 5], by decide⟩, rfl,
    (C12_failed_malloc_returns_null failingAlloc copyTestState ⟨.node 5 .nil .nil 1⟩ 4 rfl
      ⟨[.insert 5], by decide⟩ rfl).imp fun _ h => ⟨h.1, h.2.2.1.trans (by decide)⟩⟩

/-- C15 (copy scenario). For a registry whose tree is reachable from the empty tree, a
tracked non-null block `x` of at least `size` live bytes and an allocator that does not fail
and returns an address not tracked so far, `copy(x, size)` returns an address `y` different
from `x`; the `size` bytes at `y` are those at `x` at the time of the call, and they are those
at `x` afterwards as well when the two blocks do not overlap; `x` and `y` are both tracked,
and dropping either one leaves the other tracked. -/
theorem C15_copy_scenario (malloc : Registry → Nat → Nat) (w : Registry) (t : AvlTree)
    (x size : Nat) (hgc : w.gc = some t) (hr : Reachable t) (hx : x ∈ tracked w)
    (hnz : x ≠ 0) (hblock : inBlock w x size = true) (hy : malloc w size ≠ 0)
    (hnew : malloc w size ∉ tracked w) :
    ∃ w' y, copy malloc w x size = some (w', y) ∧ y ≠ x ∧
      load y size w' = load x size w ∧
      ((y + size ≤ x ∨ x + size ≤ y) → load y size w' = load x size w') ∧
      x ∈ tracked w' ∧ y ∈ tracked w' ∧
      (∃ w₁, drop w' x = some w₁ ∧ y ∈ tracked w₁ ∧ x ∉ tracked w₁) ∧
      (∃ w₂, drop w' y = some w₂ ∧ x ∈ tracked w₂ ∧ y ∉ tracked w₂) := by
  obtain ⟨hi, ho⟩ := reachable_inv hr
  have ht := tracked_of_gc hgc
  rw [ht] at hx hnew
  obtain ⟨r₁, i₁, o₁, er₁, _, ec⟩ := copy_nonnull_spec malloc w t x size hgc hi ho hnz
  rw [if_neg hnew] at er₁
  obtain ⟨w', hm⟩ : ∃ w', memcpy (malloc w size) x size
      { malloc_effect (malloc w size) size w with gc := some ⟨r₁⟩ } = some w' :=
    ⟨_, memcpy_of_valid _ _ _ _ (Or.inr
      ⟨(inBlock_malloc_effect (malloc w size) size w).2 hy,
        (inBlock_malloc_effect (malloc w size) size w).1 x size hblock⟩)⟩
  have hgc' : w'.gc = some ⟨r₁⟩ := by rw [memcpy_eq_some hm]
  have ht' := tracked_of_gc hgc'
  have hne : malloc w size ≠ x := fun h => hnew (h ▸ hx)
  have hn₁ : (inorder r₁).Nodup := o₁.imp (fun h => Nat.ne_of_lt h)
  have hx₁ : x ∈ inorder r₁ := by rw [er₁, List.mem_orderedInsert]; exact Or.inr hx
  have hy₁ : malloc w size ∈ inorder r₁ := by
    rw [er₁, List.mem_orderedInsert]; exact Or.inl rfl
  obtain ⟨r₂, e₂, _, _, er₂⟩ := drop_spec w' ⟨r₁⟩ x hgc' i₁ o₁
  obtain ⟨r₃, e₃, _, _, er₃⟩ := drop_spec w' ⟨r₁⟩ (malloc w size) hgc' i₁ o₁
  have hl : load (malloc w size) size w' = load x size w := by
    rw [load_memcpy size hm (le_refl _)]
    rfl
  refine ⟨w', malloc w size, by rw [ec, hm]; rfl, hne, hl, ?_, ?_, ?_,
    ⟨_, e₂, ?_, ?_⟩, ⟨_, e₃, ?_, ?_⟩⟩
  · intro hd
    rw [hl, load_memcpy_disjoint x size hm hd]
    rfl
  · rw [ht']; exact hx₁
  · rw [ht']; exact hy₁
  · show malloc w size ∈ inorder r₂
    rw [er₂]
    exact (hn₁.mem_erase_iff).2 ⟨hne, hy₁⟩
  · show x ∉ inorder r₂
    rw [er₂]
    exact fun h => ((hn₁.mem_erase_iff).1 h).1 rfl
  · show x ∈ inorder r₃
    rw [er₃]
    exact (hn₁.mem_erase_iff).2 ⟨fun h => hne h.symm, hx₁⟩
  · show malloc w size ∉ inorder r₃
    rw [er₃]
    exact fun h => ((hn₁.mem_erase_iff).1 h).1 rfl

/-- The hypotheses of C15 hold for the state of `tests/copy.c`, where the block `x` of four
bytes at address `5` holds the `int` `42`, and the allocator `spacedAlloc`: the four bytes at
the address `copy` returns are those of the `int` `42`, as the `assert` of the test
demands. -/
theorem C15_witness :
    copyTestState.gc = some ⟨.node 5 .nil .nil 1⟩ ∧
      Reachable ⟨.node 5 .nil .nil 1⟩ ∧ 5 ∈ tracked copyTestState ∧ 5 ≠ 0 ∧
      inBlock copyTestState 5 4 = true ∧ spacedAlloc copyTestState 4 ≠ 0 ∧
      spacedAlloc copyTestState 4 ∉ tracked copyTestState ∧
      ∃ w' y, copy spacedAlloc copyTestState 5 4 = some (w', y) ∧ y ≠ 5 ∧
        load y 4 w' = int_bytes 42 :=
  ⟨rfl, ⟨[.insert 5], by decide⟩, by decide, by decide, by decide, by decide, by decide,
    (C15_copy_scenario spacedAlloc copyTestState ⟨.node 5 .nil .nil 1⟩ 5 4 rfl
      ⟨[.insert 5], by decide⟩ (by decide) (by decide) (by decide) (by decide)
      (by decide)).imp fun _ h =>
        h.imp fun _ h => ⟨h.1, h.2.1, h.2.2.1.trans (by decide)⟩⟩

/-- C17 (rebalance restores balance). For a node whose two subtrees satisfy the invariant and
differ in height by at most two (the node's own stored height may be stale),
`avlnode_rebalance` returns a subtree that satisfies the invariant at every node, has the
same in-order key sequence, and has the input's true height `1 + max(height(left),
height(right))` or that height minus one; when the subtrees differ by at most one, it makes
no rotation and returns the same node with only the stored height recomputed. -/
theorem C17_rebalance_restores_balance (k : Nat) (l r : AvlNode) (h0 : Int)
    (hl : AvlInv l) (hr : AvlInv r)
    (h1 : -2 ≤ avlnode_get_height l - avlnode_get_height r)
    (h2 : avlnode_get_height l - avlnode_get_height r ≤ 2) :
    ∃ t, avlnode_rebalance (.node k l r h0) = some t ∧
      HeightsOk t ∧ BalanceOk t ∧
      inorder t = inorder (.node k l r h0) ∧
      (avlnode_get_height t = 1 + max (avlnode_get_height l) (avlnode_get_height r) ∨
        avlnode_get_height t = 1 + max (avlnode_get_height l) (avlnode_get_height r) - 1) ∧
      (-1 ≤ avlnode_get_height l - avlnode_get_height r →
        avlnode_get_height l - avlnode_get_height r ≤ 1 →
        t = .node k l r (1 + max (avlnode_get_height l) (avlnode_get_height r)) ∧
          avlnode_rebalance_rotations (.node k l r h0) = 0) := by
  obtain ⟨t, e, it, et, ht⟩ := rebalance_spec k l r h0 hl hr h1 h2
  refine ⟨t, e, it.1, it.2, et, ?_, ?_⟩
  · rcases ht with h | ⟨h, _⟩
    · exact Or.inl h
    · exact Or.inr (by rw [h]; omega)
  · intro c1 c2
    have e' := rebalance_of_close k l r h0 c1 c2
    rw [e] at e'
    exact ⟨Option.some.inj e', rebalance_rotations_of_close k l r h0 c1 c2⟩

/-- The hypotheses of C17 hold for the left-heavy node with key `3` over the chain `2`, `1`:
the call rotates and returns the balanced tree with root key `2`. -/
theorem C17_witness :
    AvlInv (.node 2 (.node 1 .nil .nil 1) .nil 2) ∧ AvlInv .nil ∧
      ∃ t, avlnode_rebalance (.node 3 (.node 2 (.node 1 .nil .nil 1) .nil 2) .nil 1) = some t ∧
        HeightsOk t ∧ BalanceOk t ∧ inorder t = [1, 2, 3] :=
  ⟨by decide, by decide,
    (C17_rebalance_restores_balance 3 (.node 2 (.node 1 .nil .nil 1) .nil 2) .nil 1
      (by decide) (by decide) (by decide) (by decide)).imp
      fun _ h => ⟨h.1, h.2.1, h.2.2.1, h.2.2.2.1.trans (by decide)⟩⟩

/-- C18 (rotations keep order and fix heights). Let `a`, `b`, `c` be subtrees with correct
stored heights. `avlnode_rotate_left` on a node with left subtree `a` and right child
`(b, c)` returns that child as the new root, over the demoted node `(a, b)` and `c`;
`avlnode_rotate_right` on a node with left child `(a, b)` and right subtree `c` returns that
child as the new root, over `a` and the demoted node `(b, c)`. In both cases the in-order
key sequence is that of the input, the demoted node and the new root store
`1 + max` of their children's heights, and all stored heights of the result are correct. -/
theorem C18_rotations_keep_order (k tk : Nat) (a b c : AvlNode) (h th : Int)
    (ha : HeightsOk a) (hb : HeightsOk b) (hc : HeightsOk c) :
    (∃ hn ht, avlnode_rotate_left (.node k a (.node tk b c th) h) =
        some (.node tk (.node k a b hn) c ht) ∧
      hn = 1 + max (avlnode_get_height a) (avlnode_get_height b) ∧
      ht = 1 + max hn (avlnode_get_height c) ∧
      inorder (.node tk (.node k a b hn) c ht) = inorder (.node k a (.node tk b c th) h) ∧
      HeightsOk (.node tk (.node k a b hn) c ht)) ∧
    (∃ hn ht, avlnode_rotate_right (.node k (.node tk a b th) c h) =
        some (.node tk a (.node k b c hn) ht) ∧
      hn = 1 + max (avlnode_get_height b) (avlnode_get_height c) ∧
      ht = 1 + max (avlnode_get_height a) hn ∧
      inorder (.node tk a (.node k b c hn) ht) = inorder (.node k (.node tk a b th) c h) ∧
      HeightsOk (.node tk a (.node k b c hn) ht)) := by
  refine ⟨⟨_, _, ?_, rfl, rfl, ?_, ?_⟩, ⟨_, _, ?_, rfl, rfl, ?_, ?_⟩⟩
  · simp only [avlnode_rotate_left, update_height_node, Option.bind_eq_bind, Option.some_bind,
      get_height_node]
  · simp [inorder]
  · exact ⟨⟨ha, hb, rfl⟩, hc, rfl⟩
  · simp only [avlnode_rotate_right, update_height_node, Option.bind_eq_bind,
      Option.some_bind, get_height_node]
  · simp [inorder]
  · exact ⟨ha, ⟨hb, hc, rfl⟩, rfl⟩

/-- The hypotheses of C18 hold for three leaves: rotating the chain `1 → 3` (with subtrees
`0`, `2`, `4`) to the left makes `3` the root. -/
theorem C18_witness :
    HeightsOk (.node 0 .nil .nil 1) ∧ HeightsOk (.node 2 .nil .nil 1) ∧
      HeightsOk (.node 4 .nil .nil 1) ∧
      avlnode_rotate_left (.node 1 (.node 0 .nil .nil 1)
          (.node 3 (.node 2 .nil .nil 1) (.node 4 .nil .nil 1) 2) 3) =
        some (.node 3 (.node 1 (.node 0 .nil .nil 1) (.node 2 .nil .nil 1) 2)
          (.node 4 .nil .nil 1) 3) :=
  ⟨by decide, by decide, by decide,
    (C18_rotations_keep_order 1 3 (.node 0 .nil .nil 1) (.node 2 .nil .nil 1)
      (.node 4 .nil .nil 1) 3 2 (by decide) (by decide) (by decide)).1.elim
      fun _ h => h.elim fun _ h => h.1.trans (by rw [h.2.2.1, h.2.1]; rfl)⟩

/-- C19 (two-child removal uses the in-order successor). In a tree that satisfies the
invariant and is ordered, take a node with key `k` and both children. `avlnode_remove` of
`k` at that node is the rebalancing of the node with the left subtree unchanged, the key
replaced by `s` and the right subtree replaced by the result of removing `s` from it, where
`s` is the key of the node on which the loop `temp = temp->left` stops, the leftmost node of
the right subtree; `s` is the least key of the whole tree above `k`, and it occurs exactly
once in the result. -/
theorem C19_remove_two_children (t : AvlNode) (hi : AvlInv t) (ho : Ordered t)
    (k : Nat) (l r : AvlNode) (h : Int) (hn : .node k l r h ∈ subtrees t)
    (hl : l ≠ .nil) (hr : r ≠ .nil) :
    ∃ s sr sh rest r' t',
      avlnode_remove_loop r = some (.node s .nil sr sh) ∧
      inorder r = s :: rest ∧
      avlnode_remove r s = some r' ∧
      inorder r' = rest ∧
      avlnode_remove (.node k l r h) k = avlnode_rebalance (.node s l r' h) ∧
      avlnode_rebalance (.node s l r' h) = some t' ∧
      inorder t' = inorder l ++ s :: rest ∧
      (inorder t').count s = 1 ∧
      k < s ∧ s ∈ inorder t ∧ ∀ x ∈ inorder t, k < x → s ≤ x := by
  have hin := subtrees_inv t _ hn hi
  have hon := subtrees_ordered t _ hn ho
  obtain ⟨_, or_, _, hkr⟩ := (ordered_node_iff k l r h).1 hon
  obtain ⟨s, sr, sh, e0, rest, erest⟩ := remove_loop_spec r hr
  obtain ⟨r', e1, ir', _, er', hr'⟩ := remove_spec r s (inv_right hin) or_
  have hh := hin.1.2.2
  have b1 := hin.2.2.2.1
  have b2 := hin.2.2.2.2
  obtain ⟨t', e2, _, et', _⟩ := rebalance_spec s l r' h (inv_left hin) ir'
    (by omega) (by omega)
  have hsr : s ∈ inorder r := by rw [erest]; exact List.mem_cons_self _ _
  have er'' : inorder r' = rest := by rw [er', erest, List.erase_cons_head]
  have et'' : inorder t' = inorder l ++ s :: rest := by rw [et', er'']
  have hord : (inorder t').Pairwise (· < ·) := by
    rw [et'', ← erest]
    have : (inorder l ++ inorder r).Sublist (inorder (.node k l r h)) := by
      rw [inorder]
      exact List.Sublist.append_left (List.sublist_cons_self k _) _
    exact List.Pairwise.sublist this hon
  refine ⟨s, sr, sh, rest, r', t', e0, erest, e1, er'', ?_, e2, et'', ?_, hkr s hsr, ?_, ?_⟩
  · rw [avlnode_remove, if_neg (lt_irrefl _), if_neg (lt_irrefl _), if_neg hl, if_neg hr, e0]
    simp only [Option.bind_eq_bind, Option.some_bind, e1]
    rfl
  · refine List.count_eq_one_of_mem (hord.imp (fun h => Nat.ne_of_lt h)) ?_
    rw [et'']
    simp
  · exact subtrees_keys t _ hn s (by simp [inorder, hsr])
  · exact successor_in_tree t k s l r h rest ho hn erest

/-- The hypotheses of C19 hold at the root of the sample set `{1, 2, 3}`, whose key `2` has
both children: the loop stops on a node with key `s`, and removing `2` is the rebalancing of
the root with key `s` over the old left subtree and the right subtree without `s`. -/
theorem C19_witness :
    AvlInv sampleTree.root ∧ Ordered sampleTree.root ∧
      ∃ s sr sh rest r' t',
        avlnode_remove_loop (.node 3 .nil .nil 1) = some (.node s .nil sr sh) ∧
        inorder (.node 3 .nil .nil 1) = s :: rest ∧
        avlnode_remove (.node 2 (.node 1 .nil .nil 1) (.node 3 .nil .nil 1) 2) 2 =
          avlnode_rebalance (.node s (.node 1 .nil .nil 1) r' 2) ∧
        avlnode_rebalance (.node s (.node 1 .nil .nil 1) r' 2) = some t' :=
  ⟨by decide, by decide,
    (C19_remove_two_children sampleTree.root (by decide) (by decide) 2
      (.node 1 .nil .nil 1) (.node 3 .nil .nil 1) 2 (by decide) (by decide)
      (by decide)).imp fun _ h => h.imp fun _ h => h.imp fun _ h => h.imp fun _ h =>
        h.imp fun _ h => h.imp fun _ h => ⟨h.1, h.2.1, h.2.2.2.2.1, h.2.2.2.2.2.1⟩⟩

/-- C20 (height changes by at most one per call). For a tree that satisfies the invariant and
any key, `avlnode_insert` succeeds and the height is the old one or the old one plus one;
`avlnode_remove` succeeds and the height is the old one or the old one minus one. Hence,
next to a sibling `s` whose height differed from the tree's by at most one, the parent's
rebalance sees heights that differ by at most two. -/
theorem C20_height_changes_by_one (t : AvlNode) (key : Nat) (hi : AvlInv t) :
    (∃ t', avlnode_insert t key = some t' ∧
      (avlnode_get_height t' = avlnode_get_height t ∨
        avlnode_get_height t' = avlnode_get_height t + 1)) ∧
    (∃ t', avlnode_remove t key = some t' ∧
      (avlnode_get_height t' = avlnode_get_height t ∨
        avlnode_get_height t' = avlnode_get_height t - 1)) ∧
    ∀ s : AvlNode, -1 ≤ avlnode_get_height t - avlnode_get_height s →
      avlnode_get_height t - avlnode_get_height s ≤ 1 →
      ∀ t', (avlnode_insert t key = some t' ∨ avlnode_remove t key = some t') →
        -2 ≤ avlnode_get_height t' - avlnode_get_height s ∧
          avlnode_get_height t' - avlnode_get_height s ≤ 2 := by
  obtain ⟨a, ea, _, ha⟩ := insert_height t key hi
  obtain ⟨b, eb, _, hb⟩ := remove_height t key hi
  refine ⟨⟨a, ea, ha⟩, ⟨b, eb, hb⟩, ?_⟩
  intro s h1 h2 t' ht'
  rcases ht' with e | e
  · rw [ea] at e
    cases e
    omega
  · rw [eb] at e
    cases e
    omega

/-- The hypothesis of C20 holds for the sample set `{1, 2, 3}`: inserting `4` raises the
height from `2` to `3`. -/
theorem C20_witness :
    AvlInv sampleTree.root ∧
      ∃ t', avlnode_insert sampleTree.root 4 = some t' ∧
        (avlnode_get_height t' = 2 ∨ avlnode_get_height t' = 2 + 1) :=
  ⟨by decide, (C20_height_changes_by_one sampleTree.root 4 (by decide)).1⟩

/-- C21 (rebalance never dereferences a missing child). Let the two subtrees of a node carry
correct stored heights, so that every node below has a height of at least `1`. If the
balance `avlnode_rebalance` computes after updating the height is above `1`, the left child
is non-empty, and so is its right child when the double rotation is chosen; if the balance is
below `-1`, the right child is non-empty, and so is its left child when the double rotation
is chosen. Hence the call reads through no absent node and returns a node. Moreover, on a
tree reachable from the empty tree, every call of `avlnode_rebalance` made by
`avlnode_insert` and by `avlnode_remove` is on such a node and returns a node, and both
operations complete. -/
theorem C21_rebalance_reads_no_missing_child (k : Nat) (l r : AvlNode) (h0 : Int)
    (hl : HeightsOk l) (hr : HeightsOk r) (tree : AvlTree) (key : Nat)
    (hreach : Reachable tree) :
    (∀ n ∈ subtrees l ++ subtrees r, 1 ≤ avlnode_get_height n) ∧
    (∃ node, avlnode_update_height (.node k l r h0) = some node ∧
      (avlnode_get_balance node > 1 →
        ∃ lk ll lr lh, l = .node lk ll lr lh ∧
          (¬ avlnode_get_height ll ≥ avlnode_get_height lr → lr ≠ .nil)) ∧
      (avlnode_get_balance node < -1 →
        ∃ rk rl rr rh, r = .node rk rl rr rh ∧
          (¬ avlnode_get_height rr ≥ avlnode_get_height rl → rl ≠ .nil))) ∧
    (∃ t, avlnode_rebalance (.node k l r h0) = some t) ∧
    (∀ n ∈ avlnode_insert_rebalances tree.root key ++ avlnode_remove_rebalances tree.root key,
      ∃ k' l' r' h', n = .node k' l' r' h' ∧ HeightsOk l' ∧ HeightsOk r' ∧
        ∃ t, avlnode_rebalance n = some t) ∧
    (∃ t, avl_insert tree key = some t) ∧ (∃ t, avl_remove tree key = some t) := by
  have hln := height_nonneg hl
  have hrn := height_nonneg hr
  obtain ⟨hi, _⟩ := reachable_inv hreach
  refine ⟨?_, ⟨_, update_height_node k l r h0, ?_, ?_⟩,
    Option.isSome_iff_exists.1 (rebalance_isSome_of_heights k l r h0 hl hr), ?_, ?_, ?_⟩
  · intro n hn
    rcases List.mem_append.1 hn with hn | hn
    · exact subtrees_height_pos l n hn hl
    · exact subtrees_height_pos r n hn hr
  · intro hb
    simp only [avlnode_get_balance] at hb
    cases l with
    | nil => simp only [get_height_nil] at hb; omega
    | node lk ll lr lh =>
      refine ⟨lk, ll, lr, lh, rfl, ?_⟩
      intro hc hnil
      subst hnil
      have := height_nonneg hl.1
      simp only [get_height_nil] at hc
      omega
  · intro hb
    simp only [avlnode_get_balance] at hb
    cases r with
    | nil => simp only [get_height_nil] at hb; omega
    | node rk rl rr rh =>
      refine ⟨rk, rl, rr, rh, rfl, ?_⟩
      intro hc hnil
      subst hnil
      have := height_nonneg hr.2.1
      simp only [get_height_nil] at hc
      omega
  · intro n hn
    have h : ∃ k' l' r' h', n = .node k' l' r' h' ∧ AvlInv l' ∧ AvlInv r' ∧
        -2 ≤ avlnode_get_height l' - avlnode_get_height r' ∧
        avlnode_get_height l' - avlnode_get_height r' ≤ 2 := by
      rcases List.mem_append.1 hn with hn | hn
      · exact insert_rebalances_ok tree.root key hi n hn
      · exact remove_rebalances_ok tree.root key hi n hn
    obtain ⟨k', l', r', h', e, il', ir', _, _⟩ := h
    refine ⟨k', l', r', h', e, il'.1, ir'.1, ?_⟩
    rw [e]
    exact Option.isSome_iff_exists.1 (rebalance_isSome_of_heights k' l' r' h' il'.1 ir'.1)
  · obtain ⟨t', e, _⟩ := insert_height tree.root key hi
    exact ⟨⟨t'⟩, by simp [avl_insert, e]⟩
  · obtain ⟨t', e, _⟩ := remove_height tree.root key hi
    exact ⟨⟨t'⟩, by simp [avl_remove, e]⟩

/-- The hypotheses of C21 hold for the left-heavy node with key `3` over the chain `2`, `1`,
whose balance is `2`, and for the sample set `{1, 2, 3}` with the key `4`: the rebalance of
the node returns a node, and so does every rebalance call of the insertion and of the
removal. -/
theorem C21_witness :
    HeightsOk (.node 2 (.node 1 .nil .nil 1) .nil 2) ∧ HeightsOk .nil ∧
      Reachable sampleTree ∧
      (∃ t, avlnode_rebalance (.node 3 (.node 2 (.node 1 .nil .nil 1) .nil 2) .nil 1) =
        some t) ∧
      ∀ n ∈ avlnode_insert_rebalances sampleTree.root 4 ++
          avlnode_remove_rebalances sampleTree.root 4,
        ∃ k' l' r' h', n = .node k' l' r' h' ∧ HeightsOk l' ∧ HeightsOk r' ∧
          ∃ t, avlnode_rebalance n = some t :=
  ⟨by decide, by decide, ⟨[.insert 2, .insert 1, .insert 3], by decide⟩,
    (C21_rebalance_reads_no_missing_child 3 (.node 2 (.node 1 .nil .nil 1) .nil 2) .nil 1
      (by decide) (by decide) sampleTree 4
      ⟨[.insert 2, .insert 1, .insert 3], by decide⟩).2.2.1,
    (C21_rebalance_reads_no_missing_child 3 (.node 2 (.node 1 .nil .nil 1) .nil 2) .nil 1
      (by decide) (by decide) sampleTree 4
      ⟨[.insert 2, .insert 1, .insert 3], by decide⟩).2.2.2.1⟩

end Rcd
